import Mathlib

/-!
# Phone-pad parser (`ParserPhonePad`)

A shallow embedding of `parserphonepad.cpp` / `result.h`, followed by theorems about it.

Modelling conventions
* A C++ `char` is a byte, `CChar = Fin 256`; `char` is taken to be signed (the project is
  built with MSVC), so the literal `-1` stored in a `char` is the byte `255`, which is what
  `(-1 : Fin 256)` denotes, and `sval` gives the promoted (signed) value used by `<=`/`>=`.
* A `std::string` is a `List CChar`.
* `int keyIterations` is an `Int`, and `++keyIterations` adds one to it. The count is at most
  the number of characters scanned, so on every input of at most `INT_MAX` characters it stays
  within the range of `int` and the model agrees with the machine (`counts_fit_int`); the
  theorems whose statement depends on the value of the count carry that bound.
* `size_t` is 64 bits wide; conversions to it are taken modulo `2^64`.
* A failed `assert` (or an out-of-range subscript) is the outcome `none`.
-/

namespace ParserPhonePad

/-- A C++ `char`, as a byte. -/
abbrev CChar := Fin 256

/-- The `char` written as the character literal `c` in the source. -/
def ch (c : Char) : CChar := Fin.ofNat c.toNat

/-- The `std::string` written as the string literal `s` in the source. -/
def str (s : String) : List CChar := s.toList.map ch

/-- Value of a (signed) `char` after integral promotion. -/
def sval (c : CChar) : Int := if c.val < 128 then (c.val : Int) else (c.val : Int) - 256

/-- Modulus of `size_t` arithmetic. -/
def SIZE_MOD : Nat := 2 ^ 64

/-- Conversion of a signed integer to `size_t`. -/
def toSizeT (x : Int) : Nat := (x % (SIZE_MOD : Int)).toNat

/-! ## `result.h` -/

/-- The class `Result<std::string>`: constructor `Result(_error, result)`. -/
structure Result where
  error : List CChar
  _result : List CChar
deriving DecidableEq

/-- `static Result<T> Ok(const T& result) { return Result("", result); }` -/
def Result.Ok (result : List CChar) : Result := ⟨[], result⟩

/-- `static Result<T> Error(const T& error) { return Result(error, ""); }` -/
def Result.Error (error : List CChar) : Result := ⟨error, []⟩

/-- `bool ok() const { return error.empty(); }` -/
def Result.ok (r : Result) : Bool := r.error.isEmpty

/-- `const T& result() const { assert(ok()); return _result; }` -/
def Result.result (r : Result) : Option (List CChar) :=
  if r.ok then some r._result else none

/-! ## `parserphonepad.cpp` -/

/-- `initKeyMap()`: the rows of the keypad, indexed by button. -/
def initKeyMap : List (List CChar) :=
  [ [ch ' '],
    [ch '&', ch (Char.ofNat 39), ch '(', ch ')'],
    [ch 'A', ch 'B', ch 'C'],
    [ch 'D', ch 'E', ch 'F'],
    [ch 'G', ch 'H', ch 'I'],
    [ch 'J', ch 'K', ch 'L'],
    [ch 'M', ch 'N', ch 'O'],
    [ch 'P', ch 'Q', ch 'R', ch 'S'],
    [ch 'T', ch 'U', ch 'V'],
    [ch 'W', ch 'X', ch 'Y', ch 'Z'] ]

/-- The member `keyMap`, initialised from `initKeyMap()`. -/
def keyMap : List (List CChar) := initKeyMap

/-- The member `validInputs`. -/
def validInputs : List CChar :=
  [ch '0', ch '1', ch '2', ch '3', ch '4', ch '5', ch '6', ch '7', ch '8', ch '9',
   ch '#', ch ' ', ch '*']

/-- `keypadToKeyMap(key)`: `assert(key >= '0' && key <= '9'); return keyMap[size_t(key) - '0'];`
The result is `none` when the assertion fails or the subscript is out of range. -/
def keypadToKeyMap (key : CChar) : Option (List CChar) :=
  if sval key ≥ sval (ch '0') ∧ sval key ≤ sval (ch '9') then
    keyMap[(toSizeT (sval key) + SIZE_MOD - toSizeT (sval (ch '0'))) % SIZE_MOD]?
  else
    none

/-- `getCharForPresses(keyChar, keyPresses)`:
`auto charMap = keypadToKeyMap(keyChar);
 return charMap[(size_t(keyPresses) - 1) % charMap.size()];` -/
def getCharForPresses (keyChar : CChar) (keyPresses : Int) : Option CChar :=
  match keypadToKeyMap keyChar with
  | none => none
  | some charMap =>
    charMap[((toSizeT keyPresses + SIZE_MOD - 1) % SIZE_MOD) % charMap.length]?

/-- The local variables of `parse` that the loop updates. `keyIterations` holds the value of
the `int`; it is exact as long as that value is at most `INT_MAX`, which is the case on every
input of at most `INT_MAX` characters. -/
structure ScanState where
  keyPressing : CChar
  keyIterations : Int
  result : List CChar
deriving DecidableEq

/-- The locals as initialised before the loop:
`char keyPressing = -1; int keyIterations = 0; string result;` -/
def initState : ScanState := { keyPressing := -1, keyIterations := 0, result := [] }

/-- The `if`/`else if` chain of the loop body, applied to the character `c = *i`.
`none` is a failed assertion. `++keyIterations` is `+ 1`, the machine's result whenever the
count is below `INT_MAX`. -/
def step (st : ScanState) (c : CChar) : Option ScanState :=
  if c = ch '*' then
    some { keyPressing := -1
           result := if st.keyIterations = 0 ∧ ¬ st.result.isEmpty then st.result.dropLast
                     else st.result
           keyIterations := 0 }
  else if c = ch ' ' then
    if st.keyPressing ≠ -1 then
      match getCharForPresses st.keyPressing st.keyIterations with
      | none => none
      | some r => some { keyPressing := -1, keyIterations := 0, result := st.result ++ [r] }
    else
      some { keyPressing := -1, keyIterations := 0, result := st.result }
  else if st.keyPressing = -1 then
    some { keyPressing := c, keyIterations := st.keyIterations + 1, result := st.result }
  else if c = st.keyPressing then
    some { keyPressing := st.keyPressing, keyIterations := st.keyIterations + 1,
           result := st.result }
  else if st.keyPressing ≠ -1 ∧ c ≠ ch ' ' then
    match getCharForPresses st.keyPressing st.keyIterations with
    | none => none
    | some r => some { keyPressing := c, keyIterations := 1, result := st.result ++ [r] }
  else
    none

/-- How the `for` loop of `parse` is left. -/
inductive Scan where
  /-- an assertion failed -/
  | abort
  /-- `return Result<string>::Error(...)` from inside the loop -/
  | error (e : List CChar)
  /-- `break` with `*i == '#'`; `rest` is what follows `i` in the input -/
  | atHash (st : ScanState) (rest : List CChar)
  /-- the loop condition failed, `i == input.cend()` -/
  | atEnd (st : ScanState)
deriving DecidableEq

/-- The `for` loop of `parse`, run from state `st` on the remaining input. -/
def scan (st : ScanState) : List CChar → Scan
  | [] => .atEnd st
  | c :: rest =>
    if c ∉ validInputs then
      .error (str "Invalid input: " ++ [c])
    else
      match step st c with
      | none => .abort
      | some st' => if c = ch '#' then .atHash st' rest else scan st' rest

/-- `ParserPhonePad::parse(input)`; `none` is a failed assertion. -/
def parse (input : List CChar) : Option Result :=
  if input.isEmpty then
    some (Result.Error (str "An empty string is not valid input"))
  else
    match scan initState input with
    | .abort => none
    | .error e => some (Result.Error e)
    | .atEnd _ => some (Result.Error (str "End of input reached without terminating '#' token"))
    | .atHash st rest =>
      if ¬ rest.isEmpty then
        some (Result.Error (str "Unexpected input beyond terminating '#' token"))
      else
        some (Result.Ok st.result)

/-! ## Auxiliary notions used to state the properties -/

/-- The digit characters `'0'..'9'`. -/
def isDigit (c : CChar) : Prop := ch '0' ≤ c ∧ c ≤ ch '9'

instance (c : CChar) : Decidable (isDigit c) := by unfold isDigit; infer_instance

/-- Characters that may precede the terminator: digits, space and `'*'`. -/
def isBody (c : CChar) : Prop := isDigit c ∨ c = ch ' ' ∨ c = ch '*'

instance (c : CChar) : Decidable (isBody c) := by unfold isBody; infer_instance

/-- The keypad layout as the specification tabulates it: digit to ordered characters. -/
def specLayout (d : CChar) : List CChar :=
  if d = ch '0' then [ch ' ']
  else if d = ch '1' then [ch '&', ch (Char.ofNat 39), ch '(', ch ')']
  else if d = ch '2' then [ch 'A', ch 'B', ch 'C']
  else if d = ch '3' then [ch 'D', ch 'E', ch 'F']
  else if d = ch '4' then [ch 'G', ch 'H', ch 'I']
  else if d = ch '5' then [ch 'J', ch 'K', ch 'L']
  else if d = ch '6' then [ch 'M', ch 'N', ch 'O']
  else if d = ch '7' then [ch 'P', ch 'Q', ch 'R', ch 'S']
  else if d = ch '8' then [ch 'T', ch 'U', ch 'V']
  else if d = ch '9' then [ch 'W', ch 'X', ch 'Y', ch 'Z']
  else []

/-- Largest value of a C++ `int`. -/
def INT_MAX : Int := 2147483647

/-- The loop invariant of `parse`: either no press is in progress (`keyPressing == -1`,
`keyIterations == 0`) or a digit is being pressed and has been counted at least once. -/
def Inv (st : ScanState) : Prop :=
  (st.keyPressing = -1 ∧ st.keyIterations = 0) ∨ (isDigit st.keyPressing ∧ 1 ≤ st.keyIterations)

/-- The input up to and including its first `'#'`, or the whole input if it has none: the
characters the loop of `parse` can reach. -/
def uptoHash : List CChar → List CChar
  | [] => []
  | c :: cs => if c = ch '#' then [c] else c :: uptoHash cs

/-- The first character of `p` outside `{0-9, space, *, #}`, if there is one. -/
def firstInvalid (p : List CChar) : Option CChar :=
  p.find? (fun c => decide (c ∉ validInputs))

/-- The failure kinds of the specification's error taxonomy. -/
inductive ErrorKind where
  | EmptyInput
  | InvalidCharacter (c : CChar)
  | MissingTerminator
  | TrailingInput
deriving DecidableEq

/-- The error description `parse` returns for each failure kind. -/
def ErrorKind.message : ErrorKind → List CChar
  | .EmptyInput => str "An empty string is not valid input"
  | .InvalidCharacter c => str "Invalid input: " ++ [c]
  | .MissingTerminator => str "End of input reached without terminating '#' token"
  | .TrailingInput => str "Unexpected input beyond terminating '#' token"

/-- The failure kind the specification's taxonomy assigns to an input, decided in scan
order. -/
def specFailure (input : List CChar) : ErrorKind :=
  if input = [] then .EmptyInput
  else
    match firstInvalid (uptoHash input) with
    | some c => .InvalidCharacter c
    | none => if ch '#' ∉ input then .MissingTerminator else .TrailingInput

/-- Number of consecutive occurrences of `d` at the end of `pre`: the presses of the button
`d` made in a row up to the current position. -/
def trailingPresses (d : CChar) (pre : List CChar) : Nat :=
  (pre.reverse.takeWhile (fun c => decide (c = d))).length

/-- The arguments of the call `getCharForPresses(keyPressing, keyIterations)` that the loop
body makes on the character `c` in state `st`, if it makes one (the wait branch and the
different-button branch). -/
def lookupCall (st : ScanState) (c : CChar) : Option (CChar × Int) :=
  if c = ch '*' then none
  else if c = ch ' ' then
    if st.keyPressing ≠ -1 then some (st.keyPressing, st.keyIterations) else none
  else if st.keyPressing = -1 then none
  else if c = st.keyPressing then none
  else some (st.keyPressing, st.keyIterations)

/-- The statements of `parse` that follow the loop, applied to the way the loop was left. -/
def finish : Scan → Option Result
  | .abort => none
  | .error e => some (Result.Error e)
  | .atEnd _ => some (Result.Error (str "End of input reached without terminating '#' token"))
  | .atHash st rest =>
    if ¬ rest.isEmpty then
      some (Result.Error (str "Unexpected input beyond terminating '#' token"))
    else
      some (Result.Ok st.result)

/-- The pieces of `body` between its spaces (`body` split at spaces). -/
def splitAtSpaces : List CChar → List (List CChar)
  | [] => [[]]
  | c :: cs =>
    if c = ch ' ' then [] :: splitAtSpaces cs
    else
      match splitAtSpaces cs with
      | [] => [[c]]
      | p :: ps => (c :: p) :: ps

/-- The maximal runs of one repeated character in `piece`, in order, each given by its
character and its length. -/
def maximalRuns : List CChar → List (CChar × Nat)
  | [] => []
  | c :: cs =>
    match maximalRuns cs with
    | [] => [(c, 1)]
    | (d, k) :: rs => if c = d then (d, k + 1) :: rs else (c, 1) :: (d, k) :: rs

/-- The press sequences of `body`: `body` is split at spaces and each piece is split into its
maximal runs. -/
def pressSequences (body : List CChar) : List (CChar × Nat) :=
  (splitAtSpaces body).flatMap maximalRuns

/-- The text the press sequences of `body` stand for: one `getCharForPresses(digit, length)`
per run. -/
def specDecode (body : List CChar) : List (Option CChar) :=
  (pressSequences body).map (fun run => getCharForPresses run.1 run.2)

/-! ## Facts about characters and the keypad table -/

set_option maxRecDepth 100000

theorem mem_validInputs_iff : ∀ c : CChar, c ∈ validInputs ↔ (isBody c ∨ c = ch '#') := by
  decide

theorem digit_facts : ∀ c : CChar, isDigit c →
    c ≠ ch '*' ∧ c ≠ ch ' ' ∧ c ≠ ch '#' ∧ c ≠ -1 := by
  decide

theorem body_ne_hash : ∀ c : CChar, isBody c → c ≠ ch '#' := by
  decide

theorem keypadToKeyMap_digit : ∀ c : CChar, isDigit c →
    keypadToKeyMap c = some (specLayout c) ∧ 0 < (specLayout c).length := by
  decide

theorem isBody_valid {c : CChar} (h : isBody c) : c ∈ validInputs :=
  (mem_validInputs_iff c).mpr (Or.inl h)

theorem hash_valid : ch '#' ∈ validInputs := by decide

theorem toSizeT_pred (n : Int) (h1 : 1 ≤ n) (h2 : n ≤ (SIZE_MOD : Int)) :
    (toSizeT n + SIZE_MOD - 1) % SIZE_MOD = (n - 1).toNat := by
  unfold toSizeT SIZE_MOD at *
  omega

theorem getCharForPresses_digit (d : CChar) (hd : isDigit d) (n : Int) :
    ∃ r, getCharForPresses d n = some r := by
  obtain ⟨h1, h2⟩ := keypadToKeyMap_digit d hd
  unfold getCharForPresses
  rw [h1]
  exact ⟨_, List.getElem?_eq_getElem (Nat.mod_lt _ h2)⟩

/-! ## One iteration of the loop -/

theorem step_star (st : ScanState) :
    step st (ch '*') = some { keyPressing := -1
                              result := if st.keyIterations = 0 ∧ ¬ st.result.isEmpty
                                        then st.result.dropLast else st.result
                              keyIterations := 0 } := by
  simp [step]

theorem step_space_idle (st : ScanState) (h : st.keyPressing = -1) :
    step st (ch ' ') = some { keyPressing := -1, keyIterations := 0, result := st.result } := by
  have h1 : ch ' ' ≠ ch '*' := by decide
  simp [step, h1, h]

theorem step_space_pending (st : ScanState) (r : CChar) (h : st.keyPressing ≠ -1)
    (hr : getCharForPresses st.keyPressing st.keyIterations = some r) :
    step st (ch ' ') =
      some { keyPressing := -1, keyIterations := 0, result := st.result ++ [r] } := by
  have h1 : ch ' ' ≠ ch '*' := by decide
  simp [step, h1, h, hr]

theorem step_first (st : ScanState) (c : CChar) (h1 : c ≠ ch '*') (h2 : c ≠ ch ' ')
    (h : st.keyPressing = -1) :
    step st c = some { keyPressing := c, keyIterations := st.keyIterations + 1,
                       result := st.result } := by
  simp [step, h1, h2, h]

theorem step_same (st : ScanState) (c : CChar) (h1 : c ≠ ch '*') (h2 : c ≠ ch ' ')
    (h : st.keyPressing ≠ -1) (hc : c = st.keyPressing) :
    step st c = some { keyPressing := st.keyPressing, keyIterations := st.keyIterations + 1,
                       result := st.result } := by
  subst hc
  simp [step, h1, h2, h]

theorem step_other (st : ScanState) (c r : CChar) (h1 : c ≠ ch '*') (h2 : c ≠ ch ' ')
    (h : st.keyPressing ≠ -1) (hc : c ≠ st.keyPressing)
    (hr : getCharForPresses st.keyPressing st.keyIterations = some r) :
    step st c = some { keyPressing := c, keyIterations := 1, result := st.result ++ [r] } := by
  simp [step, h1, h2, h, hc, hr]

theorem Inv_init : Inv initState := Or.inl ⟨rfl, rfl⟩

theorem Inv_pending {st : ScanState} (hI : Inv st) (h : st.keyPressing ≠ -1) :
    isDigit st.keyPressing ∧ 1 ≤ st.keyIterations := by
  rcases hI with ⟨h1, _⟩ | h2
  · exact absurd h1 h
  · exact h2

theorem Inv_idle {st : ScanState} (hI : Inv st) (h : st.keyPressing = -1) :
    st.keyIterations = 0 := by
  rcases hI with ⟨_, h1⟩ | ⟨h2, _⟩
  · exact h1
  · exact absurd h (digit_facts _ h2).2.2.2

/-- A body character never makes an assertion fail and preserves the invariant. -/
theorem step_body (st : ScanState) (c : CChar) (hI : Inv st) (hc : isBody c) :
    ∃ st', step st c = some st' ∧ Inv st' := by
  rcases hc with hd | hs | hs
  · obtain ⟨d1, d2, _, d4⟩ := digit_facts c hd
    by_cases hk : st.keyPressing = -1
    · refine ⟨_, step_first st c d1 d2 hk, Or.inr ⟨hd, ?_⟩⟩
      have := Inv_idle hI hk
      simp [this]
    · obtain ⟨hp, hn⟩ := Inv_pending hI hk
      by_cases he : c = st.keyPressing
      · refine ⟨_, step_same st c d1 d2 hk he, Or.inr ⟨hp, ?_⟩⟩
        show 1 ≤ st.keyIterations + 1
        omega
      · obtain ⟨r, hr⟩ := getCharForPresses_digit _ hp st.keyIterations
        exact ⟨_, step_other st c r d1 d2 hk he hr, Or.inr ⟨hd, le_refl _⟩⟩
  · subst hs
    by_cases hk : st.keyPressing = -1
    · exact ⟨_, step_space_idle st hk, Or.inl ⟨rfl, rfl⟩⟩
    · obtain ⟨hp, _⟩ := Inv_pending hI hk
      obtain ⟨r, hr⟩ := getCharForPresses_digit _ hp st.keyIterations
      exact ⟨_, step_space_pending st r hk hr, Or.inl ⟨rfl, rfl⟩⟩
  · subst hs
    exact ⟨_, step_star st, Or.inl ⟨rfl, rfl⟩⟩

/-- The committed text after the terminator is scanned from state `st`: the pending press
sequence, if any, is appended. -/
theorem step_hash (st : ScanState) (hI : Inv st) :
    ∃ st', step st (ch '#') = some st' ∧
      ((st.keyPressing = -1 ∧ st'.result = st.result) ∨
       (st.keyPressing ≠ -1 ∧ ∃ r, getCharForPresses st.keyPressing st.keyIterations = some r ∧
          st'.result = st.result ++ [r])) := by
  have h1 : ch '#' ≠ ch '*' := by decide
  have h2 : ch '#' ≠ ch ' ' := by decide
  by_cases hk : st.keyPressing = -1
  · exact ⟨_, step_first st _ h1 h2 hk, Or.inl ⟨hk, rfl⟩⟩
  · obtain ⟨hp, _⟩ := Inv_pending hI hk
    obtain ⟨r, hr⟩ := getCharForPresses_digit _ hp st.keyIterations
    have he : ch '#' ≠ st.keyPressing := fun h => (digit_facts _ hp).2.2.1 h.symm
    exact ⟨_, step_other st _ r h1 h2 hk he hr, Or.inr ⟨hk, r, hr, rfl⟩⟩

/-! ## The loop -/

theorem scan_invalid (st : ScanState) (c : CChar) (rest : List CChar) (h : c ∉ validInputs) :
    scan st (c :: rest) = .error (str "Invalid input: " ++ [c]) := by
  simp [scan, h]

theorem scan_body_cons (st st' : ScanState) (c : CChar) (rest : List CChar) (hc : isBody c)
    (hs : step st c = some st') : scan st (c :: rest) = scan st' rest := by
  simp [scan, isBody_valid hc, hs, body_ne_hash c hc]

theorem scan_hash_cons (st st' : ScanState) (rest : List CChar)
    (hs : step st (ch '#') = some st') : scan st (ch '#' :: rest) = .atHash st' rest := by
  simp [scan, hash_valid, hs]

/-- Scanning a body (digits, spaces, `'*'`) runs to its end, keeps the invariant, and the
scan of whatever follows continues from the state reached. -/
theorem scan_body (body : List CChar) (hb : ∀ c ∈ body, isBody c) :
    ∀ st : ScanState, Inv st →
      ∃ st', scan st body = .atEnd st' ∧ Inv st' ∧
        ∀ rest, scan st (body ++ rest) = scan st' rest := by
  induction body with
  | nil => intro st hI; exact ⟨st, rfl, hI, fun _ => rfl⟩
  | cons c cs ih =>
    intro st hI
    have hc : isBody c := hb c (List.mem_cons_self _ _)
    obtain ⟨st1, h1, hI1⟩ := step_body st c hI hc
    obtain ⟨st2, h2, hI2, h3⟩ := ih (fun x hx => hb x (List.mem_cons_of_mem _ hx)) st1 hI1
    refine ⟨st2, ?_, hI2, fun rest => ?_⟩
    · rw [scan_body_cons st st1 c cs hc h1, h2]
    · rw [List.cons_append, scan_body_cons st st1 c _ hc h1, h3]

/-- Every input splits at its first character that is not a body character; the three shapes
are: no such character, an invalid character, the terminator. -/
theorem input_shape (input : List CChar) :
    (∀ c ∈ input, isBody c) ∨
    (∃ body c rest, input = body ++ c :: rest ∧ (∀ x ∈ body, isBody x) ∧ c ∉ validInputs) ∨
    (∃ body rest, input = body ++ ch '#' :: rest ∧ (∀ x ∈ body, isBody x)) := by
  induction input with
  | nil => left; intro c hc; cases hc
  | cons a as ih =>
    by_cases ha : isBody a
    · rcases ih with h | ⟨body, c, rest, h1, h2, h3⟩ | ⟨body, rest, h1, h2⟩
      · left
        intro c hc
        rcases List.mem_cons.mp hc with h0 | h0
        · rw [h0]; exact ha
        · exact h c h0
      · right; left
        refine ⟨a :: body, c, rest, by rw [h1]; rfl, ?_, h3⟩
        intro x hx
        rcases List.mem_cons.mp hx with h0 | h0
        · rw [h0]; exact ha
        · exact h2 x h0
      · right; right
        refine ⟨a :: body, rest, by rw [h1]; rfl, ?_⟩
        intro x hx
        rcases List.mem_cons.mp hx with h0 | h0
        · rw [h0]; exact ha
        · exact h2 x h0
    · by_cases hv : a ∈ validInputs
      · right; right
        rcases (mem_validInputs_iff a).mp hv with h | h
        · exact absurd h ha
        · exact ⟨[], as, by rw [h]; rfl, fun x hx => absurd hx (List.not_mem_nil x)⟩
      · right; left
        exact ⟨[], a, as, rfl, fun x hx => absurd hx (List.not_mem_nil x), hv⟩

theorem scan_shape_end (input : List CChar) (hb : ∀ c ∈ input, isBody c) :
    ∃ st, scan initState input = .atEnd st ∧ Inv st := by
  obtain ⟨st, h1, h2, _⟩ := scan_body input hb initState Inv_init
  exact ⟨st, h1, h2⟩

theorem scan_shape_invalid (body rest : List CChar) (c : CChar) (hb : ∀ x ∈ body, isBody x)
    (hc : c ∉ validInputs) :
    scan initState (body ++ c :: rest) = .error (str "Invalid input: " ++ [c]) := by
  obtain ⟨st, _, _, h3⟩ := scan_body body hb initState Inv_init
  rw [h3, scan_invalid st c rest hc]

theorem scan_shape_hash (body rest : List CChar) (hb : ∀ x ∈ body, isBody x) :
    ∃ st st', scan initState body = .atEnd st ∧ Inv st ∧ step st (ch '#') = some st' ∧
      scan initState (body ++ ch '#' :: rest) = .atHash st' rest := by
  obtain ⟨st, h1, h2, h3⟩ := scan_body body hb initState Inv_init
  obtain ⟨st', h4, _⟩ := step_hash st h2
  exact ⟨st, st', h1, h2, h4, by rw [h3, scan_hash_cons st st' rest h4]⟩

/-! ## `parse` on the three shapes of input -/

theorem parse_nil : parse [] = some (Result.Error (str "An empty string is not valid input")) := by
  rfl

theorem parse_of_scan (input : List CChar) (h : input ≠ []) :
    parse input =
      match scan initState input with
      | .abort => none
      | .error e => some (Result.Error e)
      | .atEnd _ =>
        some (Result.Error (str "End of input reached without terminating '#' token"))
      | .atHash st rest =>
        if ¬ rest.isEmpty then
          some (Result.Error (str "Unexpected input beyond terminating '#' token"))
        else
          some (Result.Ok st.result) := by
  cases input with
  | nil => exact absurd rfl h
  | cons a as => rfl

theorem parse_body (input : List CChar) (h : input ≠ []) (hb : ∀ c ∈ input, isBody c) :
    parse input =
      some (Result.Error (str "End of input reached without terminating '#' token")) := by
  obtain ⟨st, h1, _⟩ := scan_shape_end input hb
  rw [parse_of_scan input h, h1]

theorem parse_invalid (body rest : List CChar) (c : CChar) (hb : ∀ x ∈ body, isBody x)
    (hc : c ∉ validInputs) :
    parse (body ++ c :: rest) = some (Result.Error (str "Invalid input: " ++ [c])) := by
  rw [parse_of_scan _ (by simp), scan_shape_invalid body rest c hb hc]

theorem parse_trailing (body rest : List CChar) (hb : ∀ x ∈ body, isBody x) (hr : rest ≠ []) :
    parse (body ++ ch '#' :: rest) =
      some (Result.Error (str "Unexpected input beyond terminating '#' token")) := by
  obtain ⟨st, st', _, _, _, h⟩ := scan_shape_hash body rest hb
  rw [parse_of_scan _ (by simp), h]
  simp [hr]

theorem parse_terminated (body : List CChar) (hb : ∀ x ∈ body, isBody x) :
    ∃ st st', scan initState body = .atEnd st ∧ Inv st ∧ step st (ch '#') = some st' ∧
      parse (body ++ [ch '#']) = some (Result.Ok st'.result) := by
  obtain ⟨st, st', h1, h2, h3, h⟩ := scan_shape_hash body [] hb
  refine ⟨st, st', h1, h2, h3, ?_⟩
  rw [parse_of_scan _ (by simp), h]
  simp

theorem error_ne_ok (e out : List CChar) (h : e ≠ []) :
    some (Result.Error e) ≠ some (Result.Ok out) := by
  intro heq
  simp only [Option.some.injEq, Result.Error, Result.Ok, Result.mk.injEq] at heq
  exact h heq.1

theorem ok_inj {a b : List CChar} (h : some (Result.Ok a) = some (Result.Ok b)) : a = b := by
  simp only [Option.some.injEq, Result.Ok, Result.mk.injEq] at h
  exact h.2

theorem invalidMsg_ne_nil (c : CChar) : str "Invalid input: " ++ [c] ≠ [] := by simp

theorem body_hash_free (body : List CChar) (hb : ∀ x ∈ body, isBody x) : ch '#' ∉ body :=
  fun h => body_ne_hash _ (hb _ h) rfl

/-- The inputs on which `parse` takes its success path. -/
theorem parse_ok_iff_shape (input : List CChar) :
    (∃ out, parse input = some (Result.Ok out)) ↔
      ∃ body, input = body ++ [ch '#'] ∧ ∀ c ∈ body, isBody c := by
  constructor
  · rintro ⟨out, h⟩
    rcases input_shape input with hb | ⟨body, c, rest, h1, h2, h3⟩ | ⟨body, rest, h1, h2⟩
    · by_cases hn : input = []
      · subst hn
        rw [parse_nil] at h
        exact absurd h (error_ne_ok _ _ (by decide))
      · rw [parse_body input hn hb] at h
        exact absurd h (error_ne_ok _ _ (by decide))
    · rw [h1, parse_invalid body rest c h2 h3] at h
      exact absurd h (error_ne_ok _ _ (invalidMsg_ne_nil c))
    · by_cases hr : rest = []
      · subst hr
        exact ⟨body, h1, h2⟩
      · rw [h1, parse_trailing body rest h2 hr] at h
        exact absurd h (error_ne_ok _ _ (by decide))
  · rintro ⟨body, h1, h2⟩
    obtain ⟨_, st', _, _, _, h⟩ := parse_terminated body h2
    exact ⟨st'.result, by rw [h1, h]⟩

theorem scan_replicate_pending (d : CChar) (hd : isDigit d) (res rest : List CChar) (m : Nat) :
    ∀ k : Int, scan ⟨d, k, res⟩ (List.replicate m d ++ rest) = scan ⟨d, k + m, res⟩ rest := by
  obtain ⟨d1, d2, _, d4⟩ := digit_facts d hd
  induction m with
  | zero => intro k; simp
  | succ m ih =>
    intro k
    rw [List.replicate_succ, List.cons_append,
      scan_body_cons _ _ d _ (Or.inl hd) (step_same ⟨d, k, res⟩ d d1 d2 d4 rfl), ih]
    congr 2
    push_cast
    ring

theorem scan_replicate_idle (d : CChar) (hd : isDigit d) (res rest : List CChar) (m : Nat)
    (k : Int) :
    scan ⟨-1, k, res⟩ (List.replicate (m + 1) d ++ rest) = scan ⟨d, k + (m + 1 : Nat), res⟩ rest := by
  obtain ⟨d1, d2, _, _⟩ := digit_facts d hd
  rw [List.replicate_succ, List.cons_append,
    scan_body_cons _ _ d _ (Or.inl hd) (step_first ⟨-1, k, res⟩ d d1 d2 rfl),
    scan_replicate_pending d hd res rest m]
  congr 2
  push_cast
  ring

/-! ## The reachable part of the input and its first invalid character -/

theorem uptoHash_body_append (body l : List CChar) (hb : ∀ x ∈ body, isBody x) :
    uptoHash (body ++ l) = body ++ uptoHash l := by
  induction body with
  | nil => rfl
  | cons a as ih =>
    have ha : a ≠ ch '#' := body_ne_hash a (hb a (List.mem_cons_self _ _))
    rw [List.cons_append, uptoHash, if_neg ha, ih (fun x hx => hb x (List.mem_cons_of_mem _ hx))]
    rfl

theorem firstInvalid_body_append (body l : List CChar) (hb : ∀ x ∈ body, isBody x) :
    firstInvalid (body ++ l) = firstInvalid l := by
  induction body with
  | nil => rfl
  | cons a as ih =>
    have ha : a ∈ validInputs := isBody_valid (hb a (List.mem_cons_self _ _))
    have := ih (fun x hx => hb x (List.mem_cons_of_mem _ hx))
    unfold firstInvalid at this ⊢
    rw [List.cons_append, List.find?_cons]
    simp only [ha, not_true_eq_false, decide_False]
    exact this

theorem firstInvalid_shape_end (input : List CChar) (hb : ∀ c ∈ input, isBody c) :
    firstInvalid (uptoHash input) = none := by
  have h := uptoHash_body_append input [] hb
  rw [List.append_nil] at h
  have h2 := firstInvalid_body_append input [] hb
  rw [List.append_nil] at h2
  rw [h]
  show firstInvalid (input ++ []) = none
  rw [List.append_nil, h2]
  rfl

theorem firstInvalid_shape_invalid (body rest : List CChar) (c : CChar)
    (hb : ∀ x ∈ body, isBody x) (hc : c ∉ validInputs) :
    firstInvalid (uptoHash (body ++ c :: rest)) = some c := by
  have hne : c ≠ ch '#' := fun h => hc (h ▸ hash_valid)
  rw [uptoHash_body_append body _ hb, firstInvalid_body_append body _ hb, uptoHash, if_neg hne]
  unfold firstInvalid
  rw [List.find?_cons]
  simp [hc]

theorem firstInvalid_shape_hash (body rest : List CChar) (hb : ∀ x ∈ body, isBody x) :
    firstInvalid (uptoHash (body ++ ch '#' :: rest)) = none := by
  rw [uptoHash_body_append body _ hb, firstInvalid_body_append body _ hb, uptoHash, if_pos rfl]
  decide

/-- The error `parse` returns on every input on which it does not succeed, by the shape of
the input. -/
theorem parse_failure (input : List CChar) (hf : ¬ ∃ out, parse input = some (Result.Ok out)) :
    parse input = some (Result.Error (specFailure input).message) := by
  rcases input_shape input with hb | ⟨body, c, rest, h1, h2, h3⟩ | ⟨body, rest, h1, h2⟩
  · by_cases hn : input = []
    · subst hn; rfl
    · have hh : ch '#' ∉ input := body_hash_free input hb
      rw [parse_body input hn hb]
      simp [specFailure, hn, firstInvalid_shape_end input hb, hh, ErrorKind.message]
  · subst h1
    rw [parse_invalid body rest c h2 h3]
    simp [specFailure, firstInvalid_shape_invalid body rest c h2 h3, ErrorKind.message]
  · subst h1
    by_cases hr : rest = []
    · subst hr
      exact absurd ((parse_ok_iff_shape _).mpr ⟨body, rfl, h2⟩) hf
    · rw [parse_trailing body rest h2 hr]
      simp [specFailure, firstInvalid_shape_hash body rest h2, ErrorKind.message]

theorem message_injective (k1 k2 : ErrorKind) (h : k1.message = k2.message) : k1 = k2 := by
  have e1 : ∀ c, str "Invalid input: " ++ [c] ≠ str "An empty string is not valid input" := by
    decide
  have e2 : ∀ c, str "Invalid input: " ++ [c] ≠
      str "End of input reached without terminating '#' token" := by decide
  have e3 : ∀ c, str "Invalid input: " ++ [c] ≠
      str "Unexpected input beyond terminating '#' token" := by decide
  cases k1 <;> cases k2 <;> simp only [ErrorKind.message] at h <;>
    first
    | rfl
    | exact absurd h (by decide)
    | exact absurd h (e1 _)
    | exact absurd h (e2 _)
    | exact absurd h (e3 _)
    | exact absurd h.symm (e1 _)
    | exact absurd h.symm (e2 _)
    | exact absurd h.symm (e3 _)
    | (rw [List.append_cancel_left h |> List.singleton_inj.mp])

theorem uptoHash_shape_hash (body rest : List CChar) (hb : ∀ x ∈ body, isBody x) :
    uptoHash (body ++ ch '#' :: rest) = body ++ [ch '#'] := by
  rw [uptoHash_body_append body _ hb, uptoHash, if_pos rfl]

theorem valid_hash_free_body (l : List CChar) (hv : ∀ c ∈ l, c ∈ validInputs)
    (hh : ch '#' ∉ l) : ∀ c ∈ l, isBody c := by
  intro c hc
  rcases (mem_validInputs_iff c).mp (hv c hc) with h | h
  · exact h
  · exact absurd (h ▸ hc) hh

theorem step_star_init : step initState (ch '*') = some initState := by decide

theorem scan_stars (n : Nat) (s : List CChar) :
    scan initState (List.replicate n (ch '*') ++ s) = scan initState s := by
  induction n with
  | zero => rfl
  | succ n ih =>
    rw [List.replicate_succ, List.cons_append,
      scan_body_cons initState initState (ch '*') _ (Or.inr (Or.inr rfl)) step_star_init, ih]

theorem step_space_form (st : ScanState) (hI : Inv st) :
    ∃ res, step st (ch ' ') = some ⟨-1, 0, res⟩ := by
  by_cases hk : st.keyPressing = -1
  · exact ⟨_, step_space_idle st hk⟩
  · obtain ⟨hp, _⟩ := Inv_pending hI hk
    obtain ⟨r, hr⟩ := getCharForPresses_digit _ hp st.keyIterations
    exact ⟨_, step_space_pending st r hk hr⟩

theorem scan_idle_hash (res : List CChar) :
    scan ⟨-1, 0, res⟩ [ch '#'] = .atHash ⟨ch '#', 1, res⟩ [] :=
  scan_hash_cons _ _ [] (step_first ⟨-1, 0, res⟩ (ch '#') (by decide) (by decide) rfl)

theorem parse_eq_of_scan_eq (a b : List CChar) (ha : a ≠ []) (hb : b ≠ [])
    (h : scan initState a = scan initState b) : parse a = parse b := by
  rw [parse_of_scan a ha, parse_of_scan b hb, h]

/-! ## States reached by the loop -/

theorem parse_eq_finish (input : List CChar) (h : input ≠ []) :
    parse input = finish (scan initState input) := by
  rw [parse_of_scan input h]
  rfl

/-- If the loop runs through `p ++ [c]` to the end, it ran through `p`, and `c` is a body
character on which the loop body took one step. -/
theorem scan_atEnd_snoc (p : List CChar) (c : CChar) :
    ∀ st0 st : ScanState, scan st0 (p ++ [c]) = .atEnd st →
      ∃ st1, scan st0 p = .atEnd st1 ∧ isBody c ∧ step st1 c = some st := by
  induction p with
  | nil =>
    intro st0 st h
    simp only [List.nil_append, scan] at h
    by_cases hv : c ∈ validInputs
    · simp only [hv, not_true_eq_false, if_false] at h
      cases hs : step st0 c with
      | none => rw [hs] at h; cases h
      | some st' =>
        rw [hs] at h
        by_cases hh : c = ch '#'
        · simp [hh] at h
        · simp only [hh, if_false] at h
          injection h with h
          rw [h] at hs
          refine ⟨st0, rfl, ?_, hs⟩
          rcases (mem_validInputs_iff c).mp hv with hb | hb
          · exact hb
          · exact absurd hb hh
    · simp [hv] at h
  | cons a as ih =>
    intro st0 st h
    simp only [List.cons_append, scan] at h
    by_cases hv : a ∈ validInputs
    · simp only [hv, not_true_eq_false, if_false] at h
      cases hs : step st0 a with
      | none => rw [hs] at h; cases h
      | some st' =>
        rw [hs] at h
        by_cases hh : a = ch '#'
        · simp [hh] at h
        · simp only [hh, if_false] at h
          obtain ⟨st1, h1, h2, h3⟩ := ih st' st h
          refine ⟨st1, ?_, h2, h3⟩
          simp only [scan, hv, not_true_eq_false, if_false, hs, hh]
          exact h1
    · simp [hv] at h

theorem trailingPresses_nil (d : CChar) : trailingPresses d [] = 0 := rfl

theorem trailingPresses_snoc_same (d : CChar) (p : List CChar) :
    trailingPresses d (p ++ [d]) = trailingPresses d p + 1 := by
  simp [trailingPresses, List.takeWhile_cons]

theorem trailingPresses_snoc_other (d c : CChar) (p : List CChar) (h : c ≠ d) :
    trailingPresses d (p ++ [c]) = 0 := by
  simp [trailingPresses, List.takeWhile_cons, h]

theorem trailingPresses_le (d : CChar) (p : List CChar) : trailingPresses d p ≤ p.length := by
  unfold trailingPresses
  have := (List.takeWhile_prefix (fun c => decide (c = d)) (l := p.reverse)).length_le
  simpa using this

theorem trailingPresses_other (d c : CChar) (p : List CChar) (h : c ≠ d)
    (hp : 1 ≤ trailingPresses c p) : trailingPresses d p = 0 := by
  induction p using List.reverseRecOn with
  | nil => rfl
  | append_singleton l a _ =>
    by_cases ha : a = c
    · subst ha
      exact trailingPresses_snoc_other d a l h
    · rw [trailingPresses_snoc_other c a l ha] at hp
      omega

/-- The state in which the loop reaches a position: nothing pending after a wait, a delete or
at the start; otherwise the pending key is the digit pressed last and `keyIterations` counts
its consecutive presses. -/
theorem reach_inv (pre : List CChar) :
    ∀ st : ScanState, scan initState pre = .atEnd st →
      (st.keyPressing = -1 ∧ st.keyIterations = 0 ∧
        ∀ d, isDigit d → trailingPresses d pre = 0) ∨
      (isDigit st.keyPressing ∧ st.keyIterations = trailingPresses st.keyPressing pre ∧
        1 ≤ st.keyIterations) := by
  induction pre using List.reverseRecOn with
  | nil =>
    intro st h
    simp only [scan] at h
    injection h with h
    subst h
    exact Or.inl ⟨rfl, rfl, fun d _ => rfl⟩
  | append_singleton p c ih =>
    intro st h
    obtain ⟨st1, h1, hc, hs⟩ := scan_atEnd_snoc p c initState st h
    have hJ := ih st1 h1
    rcases hc with hd | hsp | hstar
    · obtain ⟨d1, d2, _, d4⟩ := digit_facts c hd
      right
      rcases hJ with ⟨k1, k2, k3⟩ | ⟨k1, k2, k3⟩
      · rw [step_first st1 c d1 d2 k1] at hs
        injection hs with hs
        subst hs
        refine ⟨hd, ?_, ?_⟩
        · show st1.keyIterations + 1 = _
          rw [trailingPresses_snoc_same, k3 c hd, k2]; rfl
        · show 1 ≤ st1.keyIterations + 1
          omega
      · have hk : st1.keyPressing ≠ -1 := (digit_facts _ k1).2.2.2
        by_cases he : c = st1.keyPressing
        · rw [step_same st1 c d1 d2 hk he] at hs
          injection hs with hs
          subst hs
          refine ⟨k1, ?_, ?_⟩
          · show st1.keyIterations + 1 = _
            rw [← he, trailingPresses_snoc_same, he, k2]
            push_cast
            rfl
          · show 1 ≤ st1.keyIterations + 1
            omega
        · obtain ⟨r, hr⟩ := getCharForPresses_digit _ k1 st1.keyIterations
          rw [step_other st1 c r d1 d2 hk he hr] at hs
          injection hs with hs
          subst hs
          refine ⟨hd, ?_, le_refl _⟩
          show (1 : Int) = _
          have h0 : trailingPresses c p = 0 :=
            trailingPresses_other c st1.keyPressing p (fun h => he h.symm) (by omega)
          rw [trailingPresses_snoc_same, h0]
          rfl
    · subst hsp
      left
      obtain ⟨res, hr⟩ : ∃ res, step st1 (ch ' ') = some ⟨-1, 0, res⟩ := by
        rcases hJ with ⟨k1, _, _⟩ | ⟨k1, _, _⟩
        · exact ⟨_, step_space_idle st1 k1⟩
        · obtain ⟨r, hr⟩ := getCharForPresses_digit _ k1 st1.keyIterations
          exact ⟨_, step_space_pending st1 r (digit_facts _ k1).2.2.2 hr⟩
      rw [hr] at hs
      injection hs with hs
      subst hs
      exact ⟨rfl, rfl, fun d hd =>
        trailingPresses_snoc_other d _ p (fun h => (digit_facts d hd).2.1 h.symm)⟩
    · subst hstar
      left
      rw [step_star] at hs
      injection hs with hs
      subst hs
      exact ⟨rfl, rfl, fun d hd =>
        trailingPresses_snoc_other d _ p (fun h => (digit_facts d hd).1 h.symm)⟩

theorem reach_Inv (pre : List CChar) (st : ScanState) (h : scan initState pre = .atEnd st) :
    Inv st := by
  rcases reach_inv pre st h with ⟨k1, k2, _⟩ | ⟨k1, _, k3⟩
  · exact Or.inl ⟨k1, k2⟩
  · exact Or.inr ⟨k1, k3⟩

theorem reach_count_le (pre : List CChar) (st : ScanState)
    (h : scan initState pre = .atEnd st) :
    0 ≤ st.keyIterations ∧ st.keyIterations ≤ pre.length := by
  rcases reach_inv pre st h with ⟨_, k2, _⟩ | ⟨_, k2, _⟩
  · rw [k2]; exact ⟨le_refl _, by omega⟩
  · rw [k2]
    have := trailingPresses_le st.keyPressing pre
    omega

/-! ## Inputs that differ after a common beginning -/

/-- Two inputs with the same beginning `s` and non-empty continuations `X`, `Y` are parsed
alike as soon as the continuations are finished alike from every state in which the loop can
leave `s`. -/
theorem parse_suffix_congr (s X Y : List CChar) (hX : X ≠ []) (hY : Y ≠ [])
    (h : ∀ st, Inv st → scan initState s = .atEnd st →
      finish (scan st X) = finish (scan st Y)) :
    parse (s ++ X) = parse (s ++ Y) := by
  rcases input_shape s with hb | ⟨body, c, rest, h1, h2, h3⟩ | ⟨body, rest, h1, h2⟩
  · obtain ⟨st, hs, hI, hcont⟩ := scan_body s hb initState Inv_init
    rw [parse_eq_finish _ (by simp [hX]), parse_eq_finish _ (by simp [hY]), hcont, hcont]
    exact h st hI hs
  · subst h1
    rw [List.append_assoc, List.append_assoc, List.cons_append, List.cons_append,
      parse_invalid body _ c h2 h3, parse_invalid body _ c h2 h3]
  · subst h1
    rw [List.append_assoc, List.append_assoc, List.cons_append, List.cons_append,
      parse_trailing body _ h2 (by simp [hX]), parse_trailing body _ h2 (by simp [hY])]

theorem finish_idle_hash (res : List CChar) :
    finish (scan ⟨-1, 0, res⟩ [ch '#']) = some (Result.Ok res) := by
  rw [scan_idle_hash]
  rfl

theorem step_space_result (st : ScanState) (hI : Inv st) :
    (st.keyPressing = -1 ∧ step st (ch ' ') = some ⟨-1, 0, st.result⟩) ∨
    (st.keyPressing ≠ -1 ∧ ∃ r, getCharForPresses st.keyPressing st.keyIterations = some r ∧
      step st (ch ' ') = some ⟨-1, 0, st.result ++ [r]⟩) := by
  by_cases hk : st.keyPressing = -1
  · exact Or.inl ⟨hk, step_space_idle st hk⟩
  · obtain ⟨hp, _⟩ := Inv_pending hI hk
    obtain ⟨r, hr⟩ := getCharForPresses_digit _ hp st.keyIterations
    exact Or.inr ⟨hk, r, hr, step_space_pending st r hk hr⟩

theorem isBody_space : isBody (ch ' ') := Or.inr (Or.inl rfl)

theorem isBody_star : isBody (ch '*') := Or.inr (Or.inr rfl)

theorem parse_space_hash (s o : List CChar) (h : parse (s ++ str " #") = some (Result.Ok o)) :
    ∃ st, scan initState s = .atEnd st ∧ Inv st ∧ step st (ch ' ') = some ⟨-1, 0, o⟩ ∧
      ∀ rest, scan initState (s ++ ch ' ' :: rest) = scan ⟨-1, 0, o⟩ rest := by
  have e1 : str " #" = [ch ' '] ++ [ch '#'] := rfl
  have hs : ∀ c ∈ s, isBody c := by
    obtain ⟨body, hb1, hb2⟩ := (parse_ok_iff_shape _).mp ⟨o, h⟩
    rw [e1, ← List.append_assoc] at hb1
    have := List.append_cancel_right hb1
    intro c hc
    exact hb2 c (this ▸ List.mem_append_left _ hc)
  obtain ⟨st, hst, hI, hcont⟩ := scan_body s hs initState Inv_init
  obtain ⟨res, hsp⟩ := step_space_form st hI
  have hL : parse (s ++ str " #") = some (Result.Ok res) := by
    rw [parse_eq_finish _ (by simp [e1]), hcont, e1]
    show finish (scan st (ch ' ' :: [ch '#'])) = _
    rw [scan_body_cons st _ (ch ' ') _ isBody_space hsp, finish_idle_hash]
  have ho : o = res := ok_inj (h.symm.trans hL)
  subst ho
  refine ⟨st, hst, hI, hsp, fun rest => ?_⟩
  rw [hcont, scan_body_cons st _ (ch ' ') _ isBody_space hsp]

theorem finish_hash (st : ScanState) (hI : Inv st) :
    (st.keyPressing = -1 ∧ finish (scan st [ch '#']) = some (Result.Ok st.result)) ∨
    (st.keyPressing ≠ -1 ∧ ∃ r, getCharForPresses st.keyPressing st.keyIterations = some r ∧
      finish (scan st [ch '#']) = some (Result.Ok (st.result ++ [r]))) := by
  obtain ⟨st', hs, hr⟩ := step_hash st hI
  have hf : finish (scan st [ch '#']) = some (Result.Ok st'.result) := by
    rw [scan_hash_cons st st' [] hs]
    rfl
  rcases hr with ⟨h1, h2⟩ | ⟨h1, r, h2, h3⟩
  · exact Or.inl ⟨h1, by rw [hf, h2]⟩
  · exact Or.inr ⟨h1, r, h2, by rw [hf, h3]⟩

theorem error_not_ok (e : List CChar) (h : e ≠ []) : (Result.Error e).ok = false := by
  cases e with
  | nil => exact absurd rfl h
  | cons a as => rfl

/-- Periodicity of the row lookup in the row length, as long as the count fits `size_t`. -/
theorem getCharForPresses_periodic (d : CChar) (hd : isDigit d) (n : Int) (m : Nat)
    (h1 : 1 ≤ n) (h2 : n + m * (specLayout d).length ≤ (SIZE_MOD : Int)) :
    getCharForPresses d n = getCharForPresses d (n + m * (specLayout d).length) := by
  obtain ⟨hk, hl⟩ := keypadToKeyMap_digit d hd
  have hm : (0 : Int) ≤ (m : Int) * ((specLayout d).length : Int) :=
    mul_nonneg (Int.ofNat_nonneg _) (Int.ofNat_nonneg _)
  have i1 := toSizeT_pred n h1 (by omega)
  have i2 := toSizeT_pred (n + m * (specLayout d).length) (by omega) h2
  have e : (n + (m : Int) * ((specLayout d).length : Int) - 1).toNat =
      (n - 1).toNat + m * (specLayout d).length := by
    have : ((m * (specLayout d).length : Nat) : Int) =
        (m : Int) * ((specLayout d).length : Int) := by push_cast; rfl
    omega
  unfold getCharForPresses
  rw [hk]
  simp only []
  rw [i1, i2, e, Nat.add_mul_mod_self_right]

/-- `parse` returns on every input: no assertion fails. -/
theorem parse_total (input : List CChar) : ∃ r, parse input = some r := by
  by_cases h : ∃ out, parse input = some (Result.Ok out)
  · obtain ⟨out, ho⟩ := h
    exact ⟨_, ho⟩
  · exact ⟨_, parse_failure input h⟩

theorem lookupCall_pending (st : ScanState) (c key : CChar) (n : Int)
    (h : lookupCall st c = some (key, n)) :
    st.keyPressing ≠ -1 ∧ key = st.keyPressing ∧ n = st.keyIterations := by
  unfold lookupCall at h
  split at h
  · cases h
  · split at h
    · split at h
      · injection h with h
        injection h with ha hb
        exact ⟨by assumption, ha.symm, hb.symm⟩
      · cases h
    · split at h
      · cases h
      · split at h
        · cases h
        · injection h with h
          injection h with ha hb
          exact ⟨by assumption, ha.symm, hb.symm⟩

theorem step_digit_form (st : ScanState) (d : CChar) (hI : Inv st) (hd : isDigit d) :
    ∃ j r, step st d = some ⟨d, j, r⟩ ∧ 1 ≤ j ∧ j ≤ st.keyIterations + 1 := by
  obtain ⟨a1, a2, _, _⟩ := digit_facts d hd
  by_cases hk : st.keyPressing = -1
  · have h0 := Inv_idle hI hk
    exact ⟨_, _, step_first st d a1 a2 hk, by omega, le_refl _⟩
  · obtain ⟨hp, h1⟩ := Inv_pending hI hk
    by_cases he : d = st.keyPressing
    · refine ⟨st.keyIterations + 1, st.result, ?_, by omega, le_refl _⟩
      rw [step_same st d a1 a2 hk he, he]
    · obtain ⟨r, hr⟩ := getCharForPresses_digit _ hp st.keyIterations
      exact ⟨_, _, step_other st d r a1 a2 hk he hr, le_refl _, by omega⟩

/-- A run of `n >= 1` presses of `d` leaves `d` pending; `m` further presses add `m` to its
count. -/
theorem scan_run_form (st : ScanState) (d : CChar) (n : Nat) (hI : Inv st) (hd : isDigit d)
    (hn : 1 ≤ n) :
    ∃ j r, 1 ≤ j ∧ j ≤ st.keyIterations + n ∧
      ∀ (m : Nat) (rest : List CChar),
        scan st (List.replicate (n + m) d ++ rest) = scan ⟨d, j + m, r⟩ rest := by
  obtain ⟨n', rfl⟩ : ∃ n', n = n' + 1 := ⟨n - 1, by omega⟩
  obtain ⟨j0, r0, hs, h1, h2⟩ := step_digit_form st d hI hd
  refine ⟨j0 + n', r0, by omega, by push_cast; omega, fun m rest => ?_⟩
  have e : n' + 1 + m = (n' + m) + 1 := by omega
  rw [e, List.replicate_succ, List.cons_append, scan_body_cons st _ d _ (Or.inl hd) hs,
    scan_replicate_pending d hd r0 rest (n' + m) j0]
  congr 2
  push_cast
  ring

theorem getCharForPresses_shift (d : CChar) (hd : isDigit d) (j : Int) (h1 : 1 ≤ j)
    (h2 : j + (specLayout d).length ≤ (SIZE_MOD : Int)) :
    getCharForPresses d (j + (specLayout d).length) = getCharForPresses d j := by
  have := getCharForPresses_periodic d hd j 1 h1 (by push_cast; omega)
  rw [this]
  congr 1
  push_cast
  ring

/-- Scanning on from a pending digit gives the same outcome when its count is larger by the
length of its row, as long as the counts fit `size_t`. -/
theorem finish_scan_shift (d : CChar) (hd : isDigit d) (t : List CChar) :
    ∀ (j : Int) (r : List CChar), 1 ≤ j →
      j + (specLayout d).length + t.length ≤ (SIZE_MOD : Int) →
      finish (scan ⟨d, j + (specLayout d).length, r⟩ t) = finish (scan ⟨d, j, r⟩ t) := by
  obtain ⟨a1, a2, a3, a4⟩ := digit_facts d hd
  induction t with
  | nil => intro j r _ _; rfl
  | cons c cs ih =>
    intro j r h1 h2
    have hlen : ((c :: cs).length : Int) = (cs.length : Int) + 1 := by simp
    rw [hlen] at h2
    have hsh := getCharForPresses_shift d hd j h1 (by omega)
    obtain ⟨x, hx⟩ := getCharForPresses_digit d hd j
    by_cases hv : c ∈ validInputs
    · rcases (mem_validInputs_iff c).mp hv with hb | hh
      · rcases hb with hcd | hsp | hstar
        · obtain ⟨b1, b2, _, _⟩ := digit_facts c hcd
          by_cases he : c = d
          · subst he
            rw [scan_body_cons _ _ c _ (Or.inl hcd)
                (step_same ⟨c, j + (specLayout c).length, r⟩ c b1 b2 a4 rfl),
              scan_body_cons _ _ c _ (Or.inl hcd) (step_same ⟨c, j, r⟩ c b1 b2 a4 rfl)]
            have := ih (j + 1) r (by omega) (by omega)
            rw [← this]
            congr 3
            ring
          · rw [scan_body_cons _ _ c _ (Or.inl hcd)
                (step_other ⟨d, j + (specLayout d).length, r⟩ c x b1 b2 a4 he
                  (hsh.trans hx)),
              scan_body_cons _ _ c _ (Or.inl hcd) (step_other ⟨d, j, r⟩ c x b1 b2 a4 he hx)]
        · subst hsp
          rw [scan_body_cons _ _ _ _ isBody_space
              (step_space_pending ⟨d, j + (specLayout d).length, r⟩ x a4 (hsh.trans hx)),
            scan_body_cons _ _ _ _ isBody_space (step_space_pending ⟨d, j, r⟩ x a4 hx)]
        · subst hstar
          have s1 : step ⟨d, j + (specLayout d).length, r⟩ (ch '*') = some ⟨-1, 0, r⟩ := by
            rw [step_star]
            have hne : ¬ (j + ((specLayout d).length : Int) = 0 ∧ ¬ r = []) :=
              fun hc => by omega
            simp [hne]
          have s2 : step ⟨d, j, r⟩ (ch '*') = some ⟨-1, 0, r⟩ := by
            rw [step_star]
            have hne : ¬ (j = 0 ∧ ¬ r = []) := fun hc => by omega
            simp [hne]
          rw [scan_body_cons _ _ _ _ isBody_star s1, scan_body_cons _ _ _ _ isBody_star s2]
      · subst hh
        have hne : ch '#' ≠ d := fun h => a3 h.symm
        rw [scan_hash_cons _ _ cs
            (step_other ⟨d, j + (specLayout d).length, r⟩ (ch '#') x (by decide) (by decide)
              a4 hne (hsh.trans hx)),
          scan_hash_cons _ _ cs
            (step_other ⟨d, j, r⟩ (ch '#') x (by decide) (by decide) a4 hne hx)]
    · rw [scan_invalid _ c cs hv, scan_invalid _ c cs hv]

/-! ## Press sequences -/

theorem splitAtSpaces_ne_nil (l : List CChar) : ∃ p ps, splitAtSpaces l = p :: ps := by
  cases l with
  | nil => exact ⟨[], [], rfl⟩
  | cons c cs =>
    by_cases hc : c = ch ' '
    · exact ⟨[], splitAtSpaces cs, by simp [splitAtSpaces, hc]⟩
    · cases h : splitAtSpaces cs with
      | nil => exact ⟨[c], [], by simp [splitAtSpaces, hc, h]⟩
      | cons p ps => exact ⟨c :: p, ps, by simp [splitAtSpaces, hc, h]⟩

theorem splitAtSpaces_cons (c : CChar) (l p : List CChar) (ps : List (List CChar))
    (hc : c ≠ ch ' ') (h : splitAtSpaces l = p :: ps) :
    splitAtSpaces (c :: l) = (c :: p) :: ps := by
  simp [splitAtSpaces, hc, h]

theorem splitAtSpaces_space (l : List CChar) :
    splitAtSpaces (ch ' ' :: l) = [] :: splitAtSpaces l := by
  simp [splitAtSpaces]

theorem splitAtSpaces_replicate (d : CChar) (k : Nat) (l p : List CChar)
    (ps : List (List CChar)) (hd : d ≠ ch ' ') (h : splitAtSpaces l = p :: ps) :
    splitAtSpaces (List.replicate k d ++ l) = (List.replicate k d ++ p) :: ps := by
  induction k with
  | zero => simpa using h
  | succ k ih =>
    rw [List.replicate_succ, List.cons_append, splitAtSpaces_cons d _ _ ps hd ih]
    rfl

theorem maximalRuns_head (c : CChar) (l : List CChar) :
    ∃ m rs, maximalRuns (c :: l) = (c, m) :: rs := by
  cases h : maximalRuns l with
  | nil => exact ⟨1, [], by simp [maximalRuns, h]⟩
  | cons x rs =>
    obtain ⟨d, k⟩ := x
    by_cases hc : c = d
    · subst hc
      exact ⟨k + 1, rs, by simp [maximalRuns, h]⟩
    · exact ⟨1, (d, k) :: rs, by simp [maximalRuns, h, hc]⟩

theorem maximalRuns_replicate (d : CChar) (k : Nat) :
    maximalRuns (List.replicate (k + 1) d) = [(d, k + 1)] := by
  induction k with
  | zero => rfl
  | succ k ih =>
    show maximalRuns (d :: List.replicate (k + 1) d) = _
    rw [maximalRuns, ih]
    simp

theorem maximalRuns_replicate_append (d c : CChar) (k : Nat) (l : List CChar) (h : d ≠ c) :
    maximalRuns (List.replicate (k + 1) d ++ c :: l) = (d, k + 1) :: maximalRuns (c :: l) := by
  obtain ⟨m, rs, hm⟩ := maximalRuns_head c l
  induction k with
  | zero =>
    show maximalRuns (d :: c :: l) = _
    rw [maximalRuns, hm]
    simp [h]
  | succ k ih =>
    rw [List.replicate_succ, List.cons_append, maximalRuns, ih]
    simp

theorem pressSequences_nil : pressSequences [] = [] := rfl

theorem pressSequences_space (l : List CChar) :
    pressSequences (ch ' ' :: l) = pressSequences l := by
  simp [pressSequences, splitAtSpaces_space, maximalRuns]

theorem pressSequences_run_end (d : CChar) (k : Nat) (hd : d ≠ ch ' ') :
    pressSequences (List.replicate (k + 1) d) = [(d, k + 1)] := by
  have h := splitAtSpaces_replicate d (k + 1) [] [] [] hd rfl
  rw [List.append_nil] at h
  simp [pressSequences, h, maximalRuns_replicate]

theorem pressSequences_run_space (d : CChar) (k : Nat) (l : List CChar) (hd : d ≠ ch ' ') :
    pressSequences (List.replicate (k + 1) d ++ ch ' ' :: l) =
      (d, k + 1) :: pressSequences l := by
  have h := splitAtSpaces_replicate d (k + 1) (ch ' ' :: l) [] (splitAtSpaces l) hd
    (splitAtSpaces_space l)
  rw [List.append_nil] at h
  simp [pressSequences, h, maximalRuns_replicate]

theorem pressSequences_run_other (d c : CChar) (k : Nat) (l : List CChar) (hd : d ≠ ch ' ')
    (hc : c ≠ ch ' ') (h : d ≠ c) :
    pressSequences (List.replicate (k + 1) d ++ c :: l) =
      (d, k + 1) :: pressSequences (c :: l) := by
  obtain ⟨p, ps, hp⟩ := splitAtSpaces_ne_nil l
  have h1 := splitAtSpaces_cons c l p ps hc hp
  have h2 := splitAtSpaces_replicate d (k + 1) (c :: l) (c :: p) ps hd h1
  simp [pressSequences, h1, h2, maximalRuns_replicate_append d c k p h]

/-- The text produced from a state with nothing pending, and from a state with `k + 1`
presses of the digit `d` pending, when the rest of the input is `body ++ "#"` with `body` made
of digits and spaces. -/
theorem finish_digits_spaces (body : List CChar) (hb : ∀ c ∈ body, isDigit c ∨ c = ch ' ') :
    (∀ res, ∃ out, finish (scan ⟨-1, 0, res⟩ (body ++ [ch '#'])) = some (Result.Ok (res ++ out)) ∧
      out.map some = specDecode body) ∧
    (∀ (d : CChar) (k : Nat) (res : List CChar), isDigit d →
      ∃ out, finish (scan ⟨d, ((k + 1 : Nat) : Int), res⟩ (body ++ [ch '#'])) =
          some (Result.Ok (res ++ out)) ∧
        out.map some = specDecode (List.replicate (k + 1) d ++ body)) := by
  induction body with
  | nil =>
    constructor
    · intro res
      exact ⟨[], by rw [List.nil_append, finish_idle_hash, List.append_nil], rfl⟩
    · intro d k res hd
      have hI : Inv ⟨d, ((k + 1 : Nat) : Int), res⟩ := Or.inr ⟨hd, by push_cast; omega⟩
      rcases finish_hash _ hI with ⟨h1, _⟩ | ⟨_, r, hr, hf⟩
      · exact absurd h1 (digit_facts d hd).2.2.2
      · refine ⟨[r], hf, ?_⟩
        rw [List.append_nil, specDecode, pressSequences_run_end d k (digit_facts d hd).2.1]
        simp only [List.map_cons, List.map_nil]
        rw [← hr]
  | cons c cs ih =>
    obtain ⟨ih1, ih2⟩ := ih (fun x hx => hb x (List.mem_cons_of_mem _ hx))
    have hc : isDigit c ∨ c = ch ' ' := hb c (List.mem_cons_self _ _)
    constructor
    · intro res
      rcases hc with hcd | hsp
      · obtain ⟨a1, a2, _, _⟩ := digit_facts c hcd
        obtain ⟨out, h1, h2⟩ := ih2 c 0 res hcd
        refine ⟨out, ?_, ?_⟩
        · rw [List.cons_append, scan_body_cons _ _ c _ (Or.inl hcd)
            (step_first ⟨-1, 0, res⟩ c a1 a2 rfl)]
          exact h1
        · exact h2
      · subst hsp
        obtain ⟨out, h1, h2⟩ := ih1 res
        refine ⟨out, ?_, ?_⟩
        · rw [List.cons_append, scan_body_cons _ _ _ _ isBody_space
            (step_space_idle ⟨-1, 0, res⟩ rfl)]
          exact h1
        · rw [h2, specDecode, specDecode, pressSequences_space]
    · intro d k res hd
      obtain ⟨b1, b2, _, b4⟩ := digit_facts d hd
      obtain ⟨r, hr⟩ := getCharForPresses_digit d hd ((k + 1 : Nat) : Int)
      rcases hc with hcd | hsp
      · obtain ⟨a1, a2, _, _⟩ := digit_facts c hcd
        by_cases he : c = d
        · subst he
          obtain ⟨out, h1, h2⟩ := ih2 c (k + 1) res hcd
          refine ⟨out, ?_, ?_⟩
          · rw [List.cons_append, scan_body_cons _ _ c _ (Or.inl hcd)
              (step_same ⟨c, ((k + 1 : Nat) : Int), res⟩ c a1 a2 b4 rfl)]
            have e : (((k + 1 : Nat) : Int) + 1) = ((k + 1 + 1 : Nat) : Int) := by push_cast; ring
            rw [e]
            exact h1
          · rw [h2]
            congr 1
            rw [List.replicate_succ' (k + 1) c, List.append_assoc]
            rfl
        · obtain ⟨out, h1, h2⟩ := ih2 c 0 (res ++ [r]) hcd
          refine ⟨r :: out, ?_, ?_⟩
          · rw [List.cons_append, scan_body_cons _ _ c _ (Or.inl hcd)
              (step_other ⟨d, ((k + 1 : Nat) : Int), res⟩ c r a1 a2 b4 he hr)]
            rw [List.append_assoc] at h1
            exact h1
          · rw [specDecode, pressSequences_run_other d c k cs b2 a2 (fun h => he h.symm)]
            simp only [List.map_cons]
            rw [hr, h2]
            rfl
      · subst hsp
        obtain ⟨out, h1, h2⟩ := ih1 (res ++ [r])
        refine ⟨r :: out, ?_, ?_⟩
        · rw [List.cons_append, scan_body_cons _ _ _ _ isBody_space
            (step_space_pending ⟨d, ((k + 1 : Nat) : Int), res⟩ r b4 hr)]
          rw [List.append_assoc] at h1
          exact h1
        · rw [specDecode, pressSequences_run_space d k cs b2]
          simp only [List.map_cons]
          rw [hr, h2]
          rfl

/-! ## Press counts and the range of `int` -/

/-- On an input of at most `INT_MAX` characters the press count held at any position the loop
reaches is a value of `int`: `++keyIterations` has not overflowed, and the model's
`keyIterations + 1` is the machine's. -/
theorem counts_fit_int (input pre : List CChar) (st : ScanState)
    (hlen : (input.length : Int) ≤ INT_MAX) (hpre : pre <+: input)
    (h : scan initState pre = .atEnd st) :
    0 ≤ st.keyIterations ∧ st.keyIterations ≤ INT_MAX := by
  obtain ⟨h0, h1⟩ := reach_count_le pre st h
  have := hpre.length_le
  exact ⟨h0, by omega⟩

theorem maximalRuns_bounds (l : List CChar) :
    ∀ run ∈ maximalRuns l, run.1 ∈ l ∧ 1 ≤ run.2 ∧ run.2 ≤ l.length := by
  induction l with
  | nil => intro run h; simp [maximalRuns] at h
  | cons c cs ih =>
    intro run hrun
    cases hm : maximalRuns cs with
    | nil =>
      rw [maximalRuns, hm] at hrun
      rw [List.mem_singleton.mp hrun]
      exact ⟨List.mem_cons_self _ _, le_refl _, by simp⟩
    | cons x rs =>
      obtain ⟨d, k⟩ := x
      rw [hm] at ih
      have hx := ih (d, k) (List.mem_cons_self _ _)
      have hrs : ∀ y ∈ rs, y.1 ∈ c :: cs ∧ 1 ≤ y.2 ∧ y.2 ≤ (c :: cs).length := by
        intro y hy
        have := ih y (List.mem_cons_of_mem _ hy)
        exact ⟨List.mem_cons_of_mem _ this.1, this.2.1, by simp; omega⟩
      rw [maximalRuns, hm] at hrun
      by_cases hc : c = d
      · simp only [hc, if_true] at hrun
        rcases List.mem_cons.mp hrun with h | h
        · rw [h]
          exact ⟨hc ▸ List.mem_cons_self _ _, by simp, by simp; exact hx.2.2⟩
        · exact hrs run h
      · simp only [hc, if_false] at hrun
        rcases List.mem_cons.mp hrun with h | h
        · rw [h]
          exact ⟨List.mem_cons_self _ _, le_refl _, by simp⟩
        · rcases List.mem_cons.mp h with h' | h'
          · rw [h']
            exact ⟨List.mem_cons_of_mem _ hx.1, hx.2.1, by simp; omega⟩
          · exact hrs run h'

theorem splitAtSpaces_bounds (l : List CChar) :
    ∀ p ∈ splitAtSpaces l, p.length ≤ l.length ∧ ∀ x ∈ p, x ∈ l ∧ x ≠ ch ' ' := by
  induction l with
  | nil =>
    intro p hp
    simp only [splitAtSpaces, List.mem_singleton] at hp
    subst hp
    exact ⟨le_refl _, fun x hx => absurd hx (List.not_mem_nil x)⟩
  | cons c cs ih =>
    intro p hp
    have hold : ∀ q ∈ splitAtSpaces cs,
        q.length ≤ (c :: cs).length ∧ ∀ x ∈ q, x ∈ c :: cs ∧ x ≠ ch ' ' := by
      intro q hq
      have := ih q hq
      exact ⟨by simp; omega, fun x hx => ⟨List.mem_cons_of_mem _ (this.2 x hx).1, (this.2 x hx).2⟩⟩
    by_cases hc : c = ch ' '
    · rw [hc, splitAtSpaces_space] at hp
      rcases List.mem_cons.mp hp with h | h
      · subst h
        exact ⟨by simp, fun x hx => absurd hx (List.not_mem_nil x)⟩
      · rw [hc]
        rw [hc] at hold
        exact hold p h
    · obtain ⟨q, qs, hq⟩ := splitAtSpaces_ne_nil cs
      rw [splitAtSpaces_cons c cs q qs hc hq] at hp
      rw [hq] at ih hold
      rcases List.mem_cons.mp hp with h | h
      · subst h
        have hq0 := ih q (List.mem_cons_self _ _)
        refine ⟨by simp; exact hq0.1, fun x hx => ?_⟩
        rcases List.mem_cons.mp hx with h' | h'
        · rw [h']
          exact ⟨List.mem_cons_self _ _, hc⟩
        · exact ⟨List.mem_cons_of_mem _ (hq0.2 x h').1, (hq0.2 x h').2⟩
      · exact hold p (List.mem_cons_of_mem _ h)

/-- Every press sequence of `body` is a run of a character of `body` other than the space, of
length between `1` and the length of `body`. -/
theorem pressSequences_bounds (body : List CChar) :
    ∀ run ∈ pressSequences body,
      run.1 ∈ body ∧ run.1 ≠ ch ' ' ∧ 1 ≤ run.2 ∧ run.2 ≤ body.length := by
  intro run hrun
  unfold pressSequences at hrun
  obtain ⟨p, hp, hr⟩ := List.mem_flatMap.mp hrun
  obtain ⟨h1, h2⟩ := splitAtSpaces_bounds body p hp
  obtain ⟨h3, h4, h5⟩ := maximalRuns_bounds p run hr
  exact ⟨(h2 _ h3).1, (h2 _ h3).2, h4, by omega⟩

/-! ## The claims -/

/-- C1. `parse` returns `Result::Ok` exactly on the inputs that are non-empty, consist of
digits, spaces, `'*'` and `'#'` only, and contain exactly one `'#'`, which is their last
character; equivalently, on the inputs `body ++ "#"` with `body` made of digits, spaces and
`'*'`. -/
theorem parse_succeeds_iff (input : List CChar) :
    ((∃ out, parse input = some (Result.Ok out)) ↔
      (input ≠ [] ∧ (∀ c ∈ input, isDigit c ∨ c = ch ' ' ∨ c = ch '*' ∨ c = ch '#') ∧
        input.count (ch '#') = 1 ∧ input.getLast? = some (ch '#'))) ∧
    ((∃ out, parse input = some (Result.Ok out)) ↔
      ∃ body, input = body ++ [ch '#'] ∧
        ∀ c ∈ body, isDigit c ∨ c = ch ' ' ∨ c = ch '*') := by
  refine ⟨(parse_ok_iff_shape input).trans ⟨?_, ?_⟩, parse_ok_iff_shape input⟩
  · rintro ⟨body, h1, h2⟩
    subst h1
    refine ⟨by simp, ?_, ?_, by simp⟩
    · intro c hc
      rcases List.mem_append.mp hc with h | h
      · rcases h2 c h with h | h | h
        · exact Or.inl h
        · exact Or.inr (Or.inl h)
        · exact Or.inr (Or.inr (Or.inl h))
      · exact Or.inr (Or.inr (Or.inr (List.mem_singleton.mp h)))
    · rw [List.count_append, List.count_eq_zero_of_not_mem (body_hash_free body h2)]
      simp
  · rintro ⟨_, h2, h3, h4⟩
    obtain ⟨body, hb⟩ : ∃ body, input = body ++ [ch '#'] := by
      rcases List.eq_nil_or_concat input with h | ⟨l, b, h⟩
      · rw [h] at h4; simp at h4
      · rw [h] at h4
        simp at h4
        exact ⟨l, by rw [h, h4]; simp⟩
    subst hb
    refine ⟨body, rfl, ?_⟩
    intro c hc
    have hcnt : body.count (ch '#') = 0 := by
      rw [List.count_append] at h3
      simp at h3
      exact h3
    have hne : c ≠ ch '#' := fun h => (List.count_eq_zero.mp hcnt) (h ▸ hc)
    rcases h2 c (List.mem_append_left _ hc) with h | h | h | h
    · exact Or.inl h
    · exact Or.inr (Or.inl h)
    · exact Or.inr (Or.inr h)
    · exact absurd h hne

/-- C2 (as stated, refuted). With input `"2#"` the press of `'2'` is still pending when `'#'`
is scanned (the scan of `"2"` ends in the state `keyPressing = '2'`, `keyIterations = 1`,
`result = ""`), yet `parse` returns the text `"A"`, not the text `""` committed before `'#'`. -/
theorem terminator_drops_pending_refuted :
    scan initState (str "2") = .atEnd ⟨ch '2', 1, []⟩ ∧
    parse (str "2#") = some (Result.Ok (str "A")) ∧
    parse (str "2#") ≠ some (Result.Ok []) := by
  decide

/-- C2 (amended). For every input `body ++ "#"` with `body` made of digits, spaces and `'*'`
in which a press sequence is still pending when `'#'` is scanned, the terminator commits the
pending sequence: the output is the text committed before `'#'` followed by
`getCharForPresses(keyPressing, keyIterations)`. -/
theorem terminator_commits_pending (body : List CChar) (st : ScanState)
    (hb : ∀ c ∈ body, isDigit c ∨ c = ch ' ' ∨ c = ch '*')
    (hs : scan initState body = .atEnd st) (hp : st.keyPressing ≠ -1) :
    ∃ r, getCharForPresses st.keyPressing st.keyIterations = some r ∧
      parse (body ++ [ch '#']) = some (Result.Ok (st.result ++ [r])) := by
  obtain ⟨st0, st', h1, h2, h3, h4⟩ := parse_terminated body hb
  rw [hs] at h1
  injection h1 with h1
  subst h1
  obtain ⟨st'', h5, h6⟩ := step_hash st h2
  rw [h3] at h5
  injection h5 with h5
  subst h5
  rcases h6 with ⟨h7, _⟩ | ⟨_, r, hr, h8⟩
  · exact absurd h7 hp
  · exact ⟨r, hr, by rw [h4, h8]⟩

theorem terminator_commits_pending_witness :
    (∀ c ∈ str "2", isDigit c ∨ c = ch ' ' ∨ c = ch '*') ∧
    scan initState (str "2") = .atEnd ⟨ch '2', 1, []⟩ ∧ ch '2' ≠ -1 ∧
    ∃ r, getCharForPresses (ch '2') 1 = some r ∧
      parse (str "2" ++ [ch '#']) = some (Result.Ok ([] ++ [r])) :=
  ⟨by decide, by decide, by decide,
    terminator_commits_pending (str "2") ⟨ch '2', 1, []⟩ (by decide) (by decide) (by decide)⟩

/-- C3. For every digit `d` and every `n >= 1` that is a press count (a value of `int`, at
most `INT_MAX`), `parse` of `n` copies of `d` followed by `'#'` returns `Ok` with the
one-character text `getCharForPresses(d, n)`, which is the character at position
`(n - 1) mod len` of the row of `d`. -/
theorem parse_single_run (d : CChar) (n : Nat) (hd : isDigit d) (hn : 1 ≤ n)
    (hmax : (n : Int) ≤ INT_MAX) :
    ∃ r, getCharForPresses d n = some r ∧
      (specLayout d)[(n - 1) % (specLayout d).length]? = some r ∧
      parse (List.replicate n d ++ [ch '#']) = some (Result.Ok [r]) := by
  obtain ⟨m, rfl⟩ : ∃ m, n = m + 1 := ⟨n - 1, by omega⟩
  obtain ⟨r, hr⟩ := getCharForPresses_digit d hd ((m + 1 : Nat) : Int)
  obtain ⟨hk, _⟩ := keypadToKeyMap_digit d hd
  have hidx := toSizeT_pred ((m + 1 : Nat) : Int) (by omega)
    (by unfold INT_MAX at hmax; unfold SIZE_MOD; omega)
  have hm : (((m + 1 : Nat) : Int) - 1).toNat = m := by omega
  have hget : getCharForPresses d ((m + 1 : Nat) : Int) =
      (specLayout d)[m % (specLayout d).length]? := by
    unfold getCharForPresses
    rw [hk]
    simp only []
    rw [hidx, hm]
  refine ⟨r, hr, ?_, ?_⟩
  · rw [Nat.add_sub_cancel, ← hget]
    exact hr
  have h1 : ch '#' ≠ ch '*' := by decide
  have h2 : ch '#' ≠ ch ' ' := by decide
  have h3 : ch '#' ≠ d := fun h => (digit_facts d hd).2.2.1 h.symm
  have hscan : scan initState (List.replicate (m + 1) d ++ [ch '#']) =
      .atHash ⟨ch '#', 1, [] ++ [r]⟩ [] := by
    show scan ⟨-1, 0, []⟩ _ = _
    rw [scan_replicate_idle d hd [] [ch '#'] m 0]
    refine scan_hash_cons _ _ [] ?_
    refine step_other _ (ch '#') r h1 h2 (digit_facts d hd).2.2.2 h3 ?_
    show getCharForPresses d (0 + ((m + 1 : Nat) : Int)) = some r
    rw [zero_add]
    exact hr
  rw [parse_of_scan _ (by simp), hscan]
  rfl

theorem parse_single_run_witness :
    isDigit (ch '3') ∧ 1 ≤ 2 ∧ ((2 : Nat) : Int) ≤ INT_MAX ∧
    ∃ r, getCharForPresses (ch '3') (2 : Nat) = some r ∧
      (specLayout (ch '3'))[(2 - 1) % (specLayout (ch '3')).length]? = some r ∧
      parse (List.replicate 2 (ch '3') ++ [ch '#']) = some (Result.Ok [r]) :=
  ⟨by decide, by decide, by decide,
    parse_single_run (ch '3') 2 (by decide) (by decide) (by decide)⟩

/-- C4. For every digit `d` and every press count `n >= 1` (an `int`), `getCharForPresses(d, n)`
returns the character at position `(n - 1) mod len` of the row the specification's keypad
layout assigns to `d`; that row is the one `keypadToKeyMap` returns and it is not empty. -/
theorem getCharForPresses_spec (d : CChar) (n : Int) (hd : isDigit d) (h1 : 1 ≤ n)
    (h2 : n ≤ INT_MAX) :
    keypadToKeyMap d = some (specLayout d) ∧
    ∃ r, getCharForPresses d n = some r ∧
      (specLayout d)[(n - 1).toNat % (specLayout d).length]? = some r := by
  obtain ⟨hk, hl⟩ := keypadToKeyMap_digit d hd
  refine ⟨hk, ?_⟩
  have hidx : (toSizeT n + SIZE_MOD - 1) % SIZE_MOD = (n - 1).toNat :=
    toSizeT_pred n h1 (by unfold INT_MAX at h2; unfold SIZE_MOD; omega)
  have hget : getCharForPresses d n =
      (specLayout d)[(n - 1).toNat % (specLayout d).length]? := by
    unfold getCharForPresses
    rw [hk, hidx]
  rw [hget]
  exact ⟨_, List.getElem?_eq_getElem (Nat.mod_lt _ hl), List.getElem?_eq_getElem (Nat.mod_lt _ hl)⟩

theorem getCharForPresses_spec_witness :
    isDigit (ch '7') ∧ (1 : Int) ≤ 5 ∧ (5 : Int) ≤ INT_MAX ∧
    keypadToKeyMap (ch '7') = some (specLayout (ch '7')) ∧
    ∃ r, getCharForPresses (ch '7') 5 = some r ∧
      (specLayout (ch '7'))[((5 : Int) - 1).toNat % (specLayout (ch '7')).length]? = some r :=
  ⟨by decide, by decide, by decide,
    getCharForPresses_spec (ch '7') 5 (by decide) (by decide) (by decide)⟩

/-- C5. Error taxonomy, first encountered wins. On every input on which `parse` does not
succeed it returns the error of exactly one kind, the one `specFailure` names: `EmptyInput`
for the empty input (its message mentions "empty"); otherwise `InvalidCharacter c` for the
first character `c` outside `{0-9, space, *, #}` in the input up to and including its first
`'#'`; otherwise `MissingTerminator` if the input has no `'#'`; otherwise `TrailingInput`. -/
theorem error_taxonomy (input : List CChar)
    (hf : ∀ out, parse input ≠ some (Result.Ok out)) :
    parse input = some (Result.Error (specFailure input).message) ∧
    (∀ k : ErrorKind, parse input = some (Result.Error k.message) → k = specFailure input) ∧
    (input = [] → specFailure input = .EmptyInput ∧
      ∃ a b, (specFailure input).message = a ++ str "empty" ++ b) := by
  have h := parse_failure input (fun ⟨out, ho⟩ => hf out ho)
  refine ⟨h, ?_, ?_⟩
  · intro k hk
    rw [h] at hk
    simp only [Option.some.injEq, Result.Error, Result.mk.injEq, and_true] at hk
    exact (message_injective _ _ hk).symm
  · intro hn
    subst hn
    exact ⟨rfl, str "An ", str " string is not valid input", by decide⟩

theorem error_taxonomy_witness :
    (∀ out, parse (str "12a#") ≠ some (Result.Ok out)) ∧
    parse (str "12a#") = some (Result.Error (specFailure (str "12a#")).message) ∧
    specFailure (str "12a#") = .InvalidCharacter (ch 'a') :=
  have hf : ∀ out, parse (str "12a#") ≠ some (Result.Ok out) := fun out =>
    (by decide : parse (str "12a#") = some (Result.Error (str "Invalid input: a"))) ▸
      error_ne_ok _ out (by decide)
  ⟨hf, (error_taxonomy (str "12a#") hf).1, by decide⟩

/-- C6 (as stated, refuted). The input `"#a"` contains the character `'a'`, which is outside
`{0-9, space, *, #}`, and `parse` fails on it with the trailing-input error, not with an
"Invalid input: " error. -/
theorem invalid_anywhere_refuted :
    ch 'a' ∈ str "#a" ∧ ch 'a' ∉ validInputs ∧
    parse (str "#a") =
      some (Result.Error (str "Unexpected input beyond terminating '#' token")) ∧
    ∀ c, parse (str "#a") ≠ some (Result.Error (str "Invalid input: " ++ [c])) := by
  decide

/-- C6 (amended). For all inputs containing a character outside `{0-9, space, *, #}` that is
not preceded by a `'#'` (it lies in the input up to and including the first `'#'`), `parse`
fails with the "Invalid input: " error, carrying such a character of the input. -/
theorem invalid_before_terminator (input : List CChar)
    (h : ∃ c ∈ uptoHash input, c ∉ validInputs) :
    ∃ c, c ∈ input ∧ c ∉ validInputs ∧
      parse input = some (Result.Error (str "Invalid input: " ++ [c])) := by
  obtain ⟨x, hx, hxv⟩ := h
  rcases input_shape input with hb | ⟨body, c, rest, h1, h2, h3⟩ | ⟨body, rest, h1, h2⟩
  · have hu := uptoHash_body_append input [] hb
    rw [List.append_nil] at hu
    rw [hu] at hx
    have hx' : x ∈ input := by simpa [uptoHash] using hx
    exact absurd (isBody_valid (hb x hx')) hxv
  · subst h1
    exact ⟨c, by simp, h3, parse_invalid body rest c h2 h3⟩
  · subst h1
    rw [uptoHash_shape_hash body rest h2] at hx
    rcases List.mem_append.mp hx with h0 | h0
    · exact absurd (isBody_valid (h2 x h0)) hxv
    · rw [List.mem_singleton.mp h0] at hxv
      exact absurd hash_valid hxv

theorem invalid_before_terminator_witness :
    (∃ c ∈ uptoHash (str "2a#"), c ∉ validInputs) ∧
    ∃ c, c ∈ str "2a#" ∧ c ∉ validInputs ∧
      parse (str "2a#") = some (Result.Error (str "Invalid input: " ++ [c])) :=
  ⟨⟨ch 'a', by decide, by decide⟩,
    invalid_before_terminator (str "2a#") ⟨ch 'a', by decide, by decide⟩⟩

/-- C7 (as stated, refuted). The inputs `"a"` and `""` contain no `'#'`, and `parse` fails on
them with the "Invalid input: " error and the empty-input error, not with the
missing-terminator error. -/
theorem no_terminator_refuted :
    ch '#' ∉ str "a" ∧
    parse (str "a") = some (Result.Error (str "Invalid input: a")) ∧
    parse (str "a") ≠
      some (Result.Error (str "End of input reached without terminating '#' token")) ∧
    ch '#' ∉ str "" ∧
    parse (str "") = some (Result.Error (str "An empty string is not valid input")) ∧
    parse (str "") ≠
      some (Result.Error (str "End of input reached without terminating '#' token")) := by
  decide

/-- C7 (amended). For all non-empty inputs without a `'#'` whose characters all belong to
`{0-9, space, *, #}`, `parse` fails with the missing-terminator error. -/
theorem missing_terminator (input : List CChar) (hne : input ≠ [])
    (hv : ∀ c ∈ input, c ∈ validInputs) (hh : ch '#' ∉ input) :
    parse input =
      some (Result.Error (str "End of input reached without terminating '#' token")) :=
  parse_body input hne (valid_hash_free_body input hv hh)

theorem missing_terminator_witness :
    str "123" ≠ [] ∧ (∀ c ∈ str "123", c ∈ validInputs) ∧ ch '#' ∉ str "123" ∧
    parse (str "123") =
      some (Result.Error (str "End of input reached without terminating '#' token")) :=
  ⟨by decide, by decide, by decide,
    missing_terminator (str "123") (by decide) (by decide) (by decide)⟩

/-- C8 (as stated, refuted). The input `"a#b"` has an extra character after its first `'#'`,
and `parse` fails on it with the "Invalid input: " error, not with the trailing-input
error. -/
theorem extra_input_refuted :
    str "a#b" = str "a" ++ ch '#' :: str "b" ∧ ch '#' ∉ str "a" ∧ str "b" ≠ [] ∧
    parse (str "a#b") = some (Result.Error (str "Invalid input: a")) ∧
    parse (str "a#b") ≠
      some (Result.Error (str "Unexpected input beyond terminating '#' token")) := by
  decide

/-- C8 (amended). For all inputs with extra characters after the first `'#'` whose characters
before that `'#'` all belong to `{0-9, space, *, #}`, `parse` fails with the trailing-input
error. -/
theorem trailing_input (body rest : List CChar) (hv : ∀ c ∈ body, c ∈ validInputs)
    (hh : ch '#' ∉ body) (hr : rest ≠ []) :
    parse (body ++ ch '#' :: rest) =
      some (Result.Error (str "Unexpected input beyond terminating '#' token")) :=
  parse_trailing body rest (valid_hash_free_body body hv hh) hr

theorem trailing_input_witness :
    (∀ c ∈ str "123", c ∈ validInputs) ∧ ch '#' ∉ str "123" ∧ str " 123#" ≠ [] ∧
    parse (str "123" ++ ch '#' :: str " 123#") =
      some (Result.Error (str "Unexpected input beyond terminating '#' token")) :=
  ⟨by decide, by decide, by decide,
    trailing_input (str "123") (str " 123#") (by decide) (by decide) (by decide)⟩

/-- C9. Deleting beyond the start of the output is a no-op and never an error: for every
non-empty input `s` and every `n`, `parse` of `n` asterisks followed by `s` equals `parse(s)`;
in particular `parse` of `n` asterisks followed by `'#'` is `Ok` with the empty text. -/
theorem leading_deletes_noop (s : List CChar) (n : Nat) (hs : s ≠ []) :
    parse (List.replicate n (ch '*') ++ s) = parse s ∧
    parse (List.replicate n (ch '*') ++ [ch '#']) = some (Result.Ok []) := by
  constructor
  · exact parse_eq_of_scan_eq _ _ (by simp [hs]) hs (scan_stars n s)
  · rw [parse_eq_of_scan_eq _ [ch '#'] (by simp) (by simp) (scan_stars n [ch '#'])]
    decide

theorem leading_deletes_noop_witness :
    str " 3#" ≠ [] ∧
    parse (List.replicate 4 (ch '*') ++ str " 3#") = parse (str " 3#") ∧
    parse (List.replicate 4 (ch '*') ++ [ch '#']) = some (Result.Ok []) :=
  ⟨by decide, leading_deletes_noop (str " 3#") 4 (by decide)⟩

/-- C10. A `'*'` arriving while a press sequence is in progress cancels that sequence and
deletes no committed output: whenever `parse(s ++ " #") = Ok o`, for every digit `d` and every
`n >= 1`, the input `s ++ " " ++ d^n ++ "*#"` having at most `INT_MAX` characters (so that no
press count overflows an `int`), `parse(s ++ " " ++ d^n ++ "*#") = Ok o`. When the `'*'` is
scanned the key `d` is pending with count `n`, a positive `int`, and the committed output is
`o`. -/
theorem delete_cancels_pending (s o : List CChar) (d : CChar) (n : Nat)
    (h : parse (s ++ str " #") = some (Result.Ok o)) (hd : isDigit d) (hn : 1 ≤ n)
    (hlen : ((s ++ str " " ++ List.replicate n d ++ str "*#").length : Int) ≤ INT_MAX) :
    parse (s ++ str " " ++ List.replicate n d ++ str "*#") = some (Result.Ok o) ∧
    scan initState (s ++ str " " ++ List.replicate n d) = .atEnd ⟨d, n, o⟩ ∧
    (1 : Int) ≤ n ∧ (n : Int) ≤ INT_MAX := by
  obtain ⟨m, rfl⟩ : ∃ m, n = m + 1 := ⟨n - 1, by omega⟩
  have e2 : str " " = [ch ' '] := rfl
  have e3 : str "*#" = [ch '*', ch '#'] := rfl
  obtain ⟨st, _, _, _, hcont⟩ := parse_space_hash s o h
  have hstar : step ⟨d, 0 + ((m + 1 : Nat) : Int), o⟩ (ch '*') = some ⟨-1, 0, o⟩ := by
    rw [step_star]
    have hne : ¬ (((m : Int) + 1 = 0) ∧ ¬ o = []) := fun hc => by omega
    simp [hne]
  refine ⟨?_, ?_, by omega, ?_⟩
  · have e : s ++ str " " ++ List.replicate (m + 1) d ++ str "*#" =
        s ++ ch ' ' :: (List.replicate (m + 1) d ++ [ch '*', ch '#']) := by
      simp [e2, e3]
    rw [e, parse_eq_finish _ (by simp), hcont, scan_replicate_idle d hd o _ m 0,
      scan_body_cons _ _ (ch '*') _ isBody_star hstar, finish_idle_hash]
  · have e : s ++ str " " ++ List.replicate (m + 1) d =
        s ++ ch ' ' :: (List.replicate (m + 1) d ++ []) := by
      simp [e2]
    rw [e, hcont, scan_replicate_idle d hd o [] m 0, zero_add]
    rfl
  · simp only [List.length_append, List.length_replicate] at hlen
    omega

theorem delete_cancels_pending_witness :
    parse (str "22*3" ++ str " #") = some (Result.Ok (str "D")) ∧ isDigit (ch '4') ∧ 1 ≤ 1 ∧
    ((str "22*3" ++ str " " ++ List.replicate 1 (ch '4') ++ str "*#").length : Int) ≤ INT_MAX ∧
    parse (str "22*3" ++ str " " ++ List.replicate 1 (ch '4') ++ str "*#") =
      some (Result.Ok (str "D")) ∧
    scan initState (str "22*3" ++ str " " ++ List.replicate 1 (ch '4')) =
      .atEnd ⟨ch '4', (1 : Nat), str "D"⟩ ∧
    (1 : Int) ≤ (1 : Nat) ∧ ((1 : Nat) : Int) ≤ INT_MAX :=
  ⟨by decide, by decide, by decide, by decide,
    delete_cancels_pending (str "22*3") (str "D") (ch '4') 1 (by decide) (by decide)
      (by decide) (by decide)⟩

/-- C11. A `'*'` arriving while no press sequence is in progress removes exactly the last
committed character: whenever `parse(s ++ " #") = Ok o`, `parse(s ++ " *#")` is `Ok` with `o`
without its last character (the empty text when `o` is empty); what remains is the beginning of
`o`, unchanged. -/
theorem delete_removes_last (s o : List CChar)
    (h : parse (s ++ str " #") = some (Result.Ok o)) :
    parse (s ++ str " *#") = some (Result.Ok o.dropLast) ∧
    o.dropLast = o.take (o.length - 1) ∧ o.dropLast <+: o := by
  refine ⟨?_, List.dropLast_eq_take o, List.dropLast_prefix o⟩
  obtain ⟨st, _, _, _, hcont⟩ := parse_space_hash s o h
  have e : str " *#" = ch ' ' :: [ch '*', ch '#'] := rfl
  have hstar : step ⟨-1, 0, o⟩ (ch '*') = some ⟨-1, 0, o.dropLast⟩ := by
    rw [step_star]
    by_cases ho : o = []
    · subst ho; rfl
    · simp [ho]
  rw [parse_eq_finish _ (by simp [e]), e, hcont,
    scan_body_cons _ _ (ch '*') _ isBody_star hstar, finish_idle_hash]

theorem delete_removes_last_witness :
    parse (str "2 3" ++ str " #") = some (Result.Ok (str "AD")) ∧
    parse (str "2 3" ++ str " *#") = some (Result.Ok (str "AD").dropLast) ∧
    (str "AD").dropLast = (str "AD").take ((str "AD").length - 1) ∧
    (str "AD").dropLast <+: str "AD" :=
  ⟨by decide, delete_removes_last (str "2 3") (str "AD") (by decide)⟩

/-- C12. Multiple waits behave as a single wait and leading waits are ignored: for all strings
`s` and `t`, `parse(s ++ "  " ++ t) = parse(s ++ " " ++ t)`, and for every non-empty `t`,
`parse(" " ++ t) = parse(t)`. -/
theorem waits_collapse (s t : List CChar) :
    parse (s ++ str "  " ++ t) = parse (s ++ str " " ++ t) ∧
    (t ≠ [] → parse (str " " ++ t) = parse t) := by
  have e1 : str "  " = [ch ' ', ch ' '] := rfl
  have e2 : str " " = [ch ' '] := rfl
  constructor
  · rw [List.append_assoc, List.append_assoc, e1, e2]
    refine parse_suffix_congr s _ _ (by simp) (by simp) ?_
    intro st hI _
    obtain ⟨res, hsp⟩ := step_space_form st hI
    show finish (scan st (ch ' ' :: ch ' ' :: t)) = finish (scan st (ch ' ' :: t))
    rw [scan_body_cons st _ (ch ' ') _ isBody_space hsp,
      scan_body_cons _ _ (ch ' ') _ isBody_space (step_space_idle ⟨-1, 0, res⟩ rfl),
      scan_body_cons st _ (ch ' ') _ isBody_space hsp]
  · intro ht
    rw [e2]
    refine parse_eq_of_scan_eq _ _ (by simp) ht ?_
    exact scan_body_cons initState initState (ch ' ') t isBody_space
      (step_space_idle initState rfl)

/-- C13. Pressing a different digit commits the pending sequence exactly as a wait would: for
all strings `s` and `t` and all digits `d1 != d2`,
`parse(s ++ [d1] ++ [d2] ++ t) = parse(s ++ [d1] ++ " " ++ [d2] ++ t)`. -/
theorem other_digit_commits_like_wait (s t : List CChar) (d1 d2 : CChar)
    (h1 : isDigit d1) (h2 : isDigit d2) (hne : d1 ≠ d2) :
    parse (s ++ [d1] ++ [d2] ++ t) = parse (s ++ [d1] ++ str " " ++ [d2] ++ t) := by
  have e2 : str " " = [ch ' '] := rfl
  have hX : s ++ [d1] ++ [d2] ++ t = s ++ (d1 :: d2 :: t) := by simp
  have hY : s ++ [d1] ++ str " " ++ [d2] ++ t = s ++ (d1 :: ch ' ' :: d2 :: t) := by
    simp [e2]
  rw [hX, hY]
  refine parse_suffix_congr s _ _ (by simp) (by simp) ?_
  intro st hI _
  obtain ⟨st1, hs1, hI1⟩ := step_body st d1 hI (Or.inl h1)
  have hk : st1.keyPressing = d1 := by
    obtain ⟨a1, a2, _, _⟩ := digit_facts d1 h1
    by_cases hk0 : st.keyPressing = -1
    · rw [step_first st d1 a1 a2 hk0] at hs1
      injection hs1 with hs1
      rw [← hs1]
    · by_cases he : d1 = st.keyPressing
      · rw [step_same st d1 a1 a2 hk0 he] at hs1
        injection hs1 with hs1
        rw [← hs1]
        exact he.symm
      · obtain ⟨r, hr⟩ := getCharForPresses_digit _ (Inv_pending hI hk0).1 st.keyIterations
        rw [step_other st d1 r a1 a2 hk0 he hr] at hs1
        injection hs1 with hs1
        rw [← hs1]
  obtain ⟨b1, b2, _, _⟩ := digit_facts d2 h2
  have hp1 : st1.keyPressing ≠ -1 := hk ▸ (digit_facts d1 h1).2.2.2
  obtain ⟨r, hr⟩ := getCharForPresses_digit _ (Inv_pending hI1 hp1).1 st1.keyIterations
  have hd : d2 ≠ st1.keyPressing := fun h => hne (hk ▸ h.symm)
  rw [scan_body_cons st st1 d1 _ (Or.inl h1) hs1, scan_body_cons st st1 d1 _ (Or.inl h1) hs1,
    scan_body_cons st1 _ d2 _ (Or.inl h2) (step_other st1 d2 r b1 b2 hp1 hd hr),
    scan_body_cons st1 _ (ch ' ') _ isBody_space (step_space_pending st1 r hp1 hr),
    scan_body_cons _ _ d2 _ (Or.inl h2)
      (step_first ⟨-1, 0, st1.result ++ [r]⟩ d2 b1 b2 rfl)]
  rfl

theorem other_digit_commits_like_wait_witness :
    isDigit (ch '2') ∧ isDigit (ch '3') ∧ ch '2' ≠ ch '3' ∧
    parse (str "11" ++ [ch '2'] ++ [ch '3'] ++ str "#") =
      parse (str "11" ++ [ch '2'] ++ str " " ++ [ch '3'] ++ str "#") :=
  ⟨by decide, by decide, by decide,
    other_digit_commits_like_wait (str "11") (str "#") (ch '2') (ch '3') (by decide)
      (by decide) (by decide)⟩

theorem waits_collapse_witness :
    parse (str "   11" ++ str "  " ++ str "23#") = parse (str "   11" ++ str " " ++ str "23#") ∧
    parse (str " " ++ str "23#") = parse (str "23#") :=
  ⟨(waits_collapse (str "   11") (str "23#")).1,
    (waits_collapse (str "   11") (str "23#")).2 (by decide)⟩

/-- C14. Wraparound is periodic in the row length: for every digit `d` with row of length
`len`, every press count `n >= 1` and every non-negative integer `k` (with `n + k*len` still an
`int`), `getCharForPresses(d, n) = getCharForPresses(d, n + k*len)`, and both are a character
of the row. -/
theorem wraparound_periodic (d : CChar) (row : List CChar) (n : Int) (k : Nat)
    (hd : isDigit d) (hrow : keypadToKeyMap d = some row) (h1 : 1 ≤ n)
    (h2 : n + k * row.length ≤ INT_MAX) :
    getCharForPresses d n = getCharForPresses d (n + k * row.length) ∧
    ∃ r, r ∈ row ∧ getCharForPresses d n = some r := by
  obtain ⟨hk, hl⟩ := keypadToKeyMap_digit d hd
  rw [hk] at hrow
  injection hrow with hrow
  subst hrow
  refine ⟨getCharForPresses_periodic d hd n k h1 ?_, ?_⟩
  · unfold INT_MAX at h2
    unfold SIZE_MOD
    omega
  · have hlt := Nat.mod_lt ((toSizeT n + SIZE_MOD - 1) % SIZE_MOD) hl
    refine ⟨(specLayout d)[((toSizeT n + SIZE_MOD - 1) % SIZE_MOD) % (specLayout d).length],
      List.getElem_mem _, ?_⟩
    unfold getCharForPresses
    rw [hk]
    exact List.getElem?_eq_getElem hlt

theorem wraparound_periodic_witness :
    isDigit (ch '7') ∧ keypadToKeyMap (ch '7') = some (str "PQRS") ∧ (1 : Int) ≤ 2 ∧
    (2 : Int) + (3 : Nat) * (str "PQRS").length ≤ INT_MAX ∧
    getCharForPresses (ch '7') 2 = getCharForPresses (ch '7') (2 + (3 : Nat) * (str "PQRS").length) ∧
    ∃ r, r ∈ str "PQRS" ∧ getCharForPresses (ch '7') 2 = some r :=
  ⟨by decide, by decide, by decide, by decide,
    wraparound_periodic (ch '7') (str "PQRS") 2 3 (by decide) (by decide) (by decide)
      (by decide)⟩

/-- C16. Every failure carries a non-empty error description, so `ok()` is true exactly when
`parse` took its success path: for every input `parse` returns a result `r`; `r.ok()` holds iff
`r` is `Result::Ok(..)`, iff the input is non-empty and the loop left at a `'#'` with nothing
after it (the path that ends in `return Result::Ok(result)`); otherwise `r.error` is not
empty. The input `"#"` succeeds with the empty text and `ok()` is true for it. -/
theorem ok_iff_success_path (input : List CChar) :
    (∃ r, parse input = some r ∧
      (r.ok = true ↔ ∃ out, r = Result.Ok out) ∧
      (r.ok = true ↔ (input ≠ [] ∧ ∃ st, scan initState input = .atHash st [])) ∧
      (r.ok = false → r.error ≠ [])) ∧
    parse (str "#") = some (Result.Ok []) ∧ (Result.Ok []).ok = true := by
  refine ⟨?_, by decide, rfl⟩
  have hfail : ∀ e : List CChar, e ≠ [] →
      ((Result.Error e).ok = true ↔ ∃ out, Result.Error e = Result.Ok out) ∧
      ((Result.Error e).ok = false → (Result.Error e).error ≠ []) := by
    intro e he
    refine ⟨?_, fun _ => he⟩
    rw [error_not_ok e he]
    constructor
    · intro h; cases h
    · rintro ⟨out, ho⟩
      simp only [Result.Error, Result.Ok, Result.mk.injEq] at ho
      exact absurd ho.1 he
  rcases input_shape input with hb | ⟨body, c, rest, h1, h2, h3⟩ | ⟨body, rest, h1, h2⟩
  · by_cases hn : input = []
    · subst hn
      refine ⟨_, parse_nil, (hfail _ (by decide)).1, ?_, (hfail _ (by decide)).2⟩
      rw [error_not_ok _ (by decide)]
      constructor
      · intro h; cases h
      · rintro ⟨h, _⟩; exact absurd rfl h
    · obtain ⟨st, hs, _⟩ := scan_shape_end input hb
      refine ⟨_, parse_body input hn hb, (hfail _ (by decide)).1, ?_, (hfail _ (by decide)).2⟩
      rw [error_not_ok _ (by decide), hs]
      constructor
      · intro h; cases h
      · rintro ⟨_, st', h⟩; cases h
  · subst h1
    refine ⟨_, parse_invalid body rest c h2 h3, (hfail _ (invalidMsg_ne_nil c)).1, ?_,
      (hfail _ (invalidMsg_ne_nil c)).2⟩
    rw [error_not_ok _ (invalidMsg_ne_nil c), scan_shape_invalid body rest c h2 h3]
    constructor
    · intro h; cases h
    · rintro ⟨_, st', h⟩; cases h
  · subst h1
    obtain ⟨st, st', _, _, _, hs⟩ := scan_shape_hash body rest h2
    by_cases hr : rest = []
    · subst hr
      have hp : parse (body ++ [ch '#']) = some (Result.Ok st'.result) := by
        rw [parse_eq_finish _ (by simp), hs]
        rfl
      refine ⟨_, hp, ⟨fun _ => ⟨_, rfl⟩, fun _ => rfl⟩, ⟨fun _ => ⟨by simp, st', hs⟩, fun _ => rfl⟩,
        ?_⟩
      intro h
      cases h
    · refine ⟨_, parse_trailing body rest h2 hr, (hfail _ (by decide)).1, ?_,
        (hfail _ (by decide)).2⟩
      rw [error_not_ok _ (by decide), hs]
      constructor
      · intro h; cases h
      · rintro ⟨_, st'', h⟩
        injection h with _ h
        exact absurd h hr

/-- C20. The terminator acts on the pending state exactly like a wait placed before it: for
every string `s` (also one with invalid characters or an earlier `'#'`),
`parse(s ++ "#") = parse(s ++ " #")`, the same output on success and the same error on
failure. -/
theorem terminator_like_wait (s : List CChar) :
    parse (s ++ str "#") = parse (s ++ str " #") := by
  have e1 : str "#" = [ch '#'] := rfl
  have e2 : str " #" = [ch ' ', ch '#'] := rfl
  rw [e1, e2]
  refine parse_suffix_congr s _ _ (by simp) (by simp) ?_
  intro st hI _
  rcases step_space_result st hI with ⟨hk, hs⟩ | ⟨hk, r, hr, hs⟩
  · rw [scan_body_cons st _ (ch ' ') _ isBody_space hs, finish_idle_hash]
    rcases finish_hash st hI with ⟨_, hf⟩ | ⟨hk', _⟩
    · exact hf
    · exact absurd hk hk'
  · rw [scan_body_cons st _ (ch ' ') _ isBody_space hs, finish_idle_hash]
    rcases finish_hash st hI with ⟨hk', _⟩ | ⟨_, r', hr', hf⟩
    · exact absurd hk' hk
    · rw [hr] at hr'
      injection hr' with hr'
      rw [hf, hr']

/-- C15. Extra presses beyond a button's character count wrap around at the level of whole
inputs: for all strings `s` and `t`, every digit `d` with row of length `len` and every
`n >= 1`, `parse(s ++ d^n ++ t) = parse(s ++ d^(n+len) ++ t)`; the inputs are strings, of
fewer than `2^64` characters. -/
theorem wraparound_in_input (s t : List CChar) (d : CChar) (row : List CChar) (n : Nat)
    (hd : isDigit d) (hrow : keypadToKeyMap d = some row) (hn : 1 ≤ n)
    (hsize : (s ++ List.replicate (n + row.length) d ++ t).length < SIZE_MOD) :
    parse (s ++ List.replicate n d ++ t) = parse (s ++ List.replicate (n + row.length) d ++ t) := by
  obtain ⟨hk, _⟩ := keypadToKeyMap_digit d hd
  rw [hk] at hrow
  injection hrow with hrow
  subst hrow
  rw [List.append_assoc, List.append_assoc]
  refine parse_suffix_congr s _ _ ?_ ?_ ?_
  · intro h
    have := congrArg List.length h
    simp only [List.length_append, List.length_replicate, List.length_nil] at this
    omega
  · intro h
    have := congrArg List.length h
    simp only [List.length_append, List.length_replicate, List.length_nil] at this
    omega
  · intro st hI hreach
    obtain ⟨j, r, h1, h2, hrun⟩ := scan_run_form st d n hI hd hn
    have hcnt := (reach_count_le s st hreach).2
    have e0 := hrun 0 t
    rw [Nat.add_zero] at e0
    rw [e0, hrun (specLayout d).length t]
    have hb : j + ((specLayout d).length : Int) + (t.length : Int) ≤ (SIZE_MOD : Int) := by
      simp only [List.length_append, List.length_replicate] at hsize
      omega
    have := finish_scan_shift d hd t j r h1 hb
    rw [this]
    congr 3
    push_cast
    ring

theorem wraparound_in_input_witness :
    isDigit (ch '2') ∧ keypadToKeyMap (ch '2') = some (str "ABC") ∧ 1 ≤ 1 ∧
    (str "666 666" ++ List.replicate (1 + (str "ABC").length) (ch '2') ++ str "#").length
      < SIZE_MOD ∧
    parse (str "666 666" ++ List.replicate 1 (ch '2') ++ str "#") =
      parse (str "666 666" ++ List.replicate (1 + (str "ABC").length) (ch '2') ++ str "#") :=
  ⟨by decide, by decide, by decide, by decide,
    wraparound_in_input (str "666 666") (str "#") (ch '2') (str "ABC") 1 (by decide)
      (by decide) (by decide) (by decide)⟩

/-- C18. The lookup assertions can never fail and the table lookup is always in range. Let
the input `pre ++ c :: post` have at most `INT_MAX` characters (so that no press count
overflows an `int`) and let the loop of `parse` reach its character `c`, a valid symbol, in
state `st`. Then `parse` returns (no assertion fails on the input), the loop body completes on
`c` without a failed assertion, and if it calls `getCharForPresses(key, n)` then `key` is a
digit `'0'..'9'` (not `'#'`, `' '`, `'*'` or `-1`), `n` is an `int` with `n >= 1`,
`keypadToKeyMap(key)` returns a non-empty row and the computed index, `(n - 1) mod` the row
length, is a valid index of that row. -/
theorem lookups_in_range (pre post : List CChar) (c : CChar) (st : ScanState)
    (hlen : ((pre ++ c :: post).length : Int) ≤ INT_MAX)
    (hreach : scan initState pre = .atEnd st) (hc : c ∈ validInputs) :
    (∃ r, parse (pre ++ c :: post) = some r) ∧
    (∃ st', step st c = some st') ∧
    ∀ key n, lookupCall st c = some (key, n) →
      isDigit key ∧ key ≠ ch '#' ∧ key ≠ ch ' ' ∧ key ≠ ch '*' ∧ key ≠ -1 ∧
      1 ≤ n ∧ n ≤ INT_MAX ∧
      ∃ row, keypadToKeyMap key = some row ∧ row ≠ [] ∧
        (toSizeT n + SIZE_MOD - 1) % SIZE_MOD = (n - 1).toNat ∧
        (n - 1).toNat % row.length < row.length ∧
        ∃ r, getCharForPresses key n = some r ∧ row[(n - 1).toNat % row.length]? = some r := by
  have hI := reach_Inv pre st hreach
  have hfit := counts_fit_int (pre ++ c :: post) pre st hlen (List.prefix_append _ _) hreach
  refine ⟨parse_total _, ?_, ?_⟩
  · rcases (mem_validInputs_iff c).mp hc with hb | hh
    · obtain ⟨st', hs, _⟩ := step_body st c hI hb
      exact ⟨st', hs⟩
    · obtain ⟨st', hs, _⟩ := step_hash st hI
      exact ⟨st', hh ▸ hs⟩
  · intro key n hcall
    obtain ⟨hp, hkey, hn⟩ := lookupCall_pending st c key n hcall
    subst hkey hn
    obtain ⟨hdig, hcount⟩ := Inv_pending hI hp
    obtain ⟨a1, a2, a3, a4⟩ := digit_facts _ hdig
    obtain ⟨hk, hl⟩ := keypadToKeyMap_digit _ hdig
    have hidx := toSizeT_pred st.keyIterations hcount
      (by have := hfit.2; unfold INT_MAX at this; unfold SIZE_MOD; omega)
    have hlt := Nat.mod_lt (st.keyIterations - 1).toNat hl
    refine ⟨hdig, a3, a2, a1, a4, hcount, hfit.2, specLayout st.keyPressing, hk,
      List.ne_nil_of_length_pos hl, hidx, hlt, _, ?_, List.getElem?_eq_getElem hlt⟩
    unfold getCharForPresses
    rw [hk]
    simp only []
    rw [hidx]
    exact List.getElem?_eq_getElem hlt

theorem lookups_in_range_witness :
    ((str "44" ++ ch '3' :: str "#").length : Int) ≤ INT_MAX ∧
    scan initState (str "44") = .atEnd ⟨ch '4', 2, []⟩ ∧ ch '3' ∈ validInputs ∧
    lookupCall ⟨ch '4', 2, []⟩ (ch '3') = some (ch '4', 2) ∧
    (∃ r, parse (str "44" ++ ch '3' :: str "#") = some r) ∧
    (∃ st', step ⟨ch '4', 2, []⟩ (ch '3') = some st') :=
  have h := lookups_in_range (str "44") (str "#") (ch '3') ⟨ch '4', 2, []⟩ (by decide)
    (by decide) (by decide)
  ⟨by decide, by decide, by decide, by decide, h.1, h.2.1⟩

/-- C19. Scan-state invariant. Let the input `pre ++ post` have at most `INT_MAX` characters
(so that no press count overflows an `int`). Whenever the loop of `parse` has scanned the
beginning `pre` and stands at the next position in state `st`: `keyIterations` is a
non-negative `int`; `keyPressing` is `-1` iff `keyIterations` is `0`; otherwise `keyPressing`
is a digit `'0'..'9'` and `keyIterations >= 1` is the number of consecutive presses of that
digit ending `pre`. Hence the delete branch's test `keyIterations == 0` and the wait branch's
test `keyPressing != -1` never both hold and never both fail. -/
theorem scan_state_invariant (pre post : List CChar) (st : ScanState)
    (hlen : ((pre ++ post).length : Int) ≤ INT_MAX)
    (hreach : scan initState pre = .atEnd st) :
    (0 ≤ st.keyIterations ∧ st.keyIterations ≤ INT_MAX) ∧
    (st.keyPressing = -1 ↔ st.keyIterations = 0) ∧
    (st.keyPressing ≠ -1 →
      isDigit st.keyPressing ∧ 1 ≤ st.keyIterations ∧
      st.keyIterations = trailingPresses st.keyPressing pre) ∧
    (st.keyIterations = 0 ↔ ¬ st.keyPressing ≠ -1) := by
  refine ⟨counts_fit_int (pre ++ post) pre st hlen (List.prefix_append _ _) hreach, ?_⟩
  rcases reach_inv pre st hreach with ⟨k1, k2, _⟩ | ⟨k1, k2, k3⟩
  · exact ⟨⟨fun _ => k2, fun _ => k1⟩, fun h => absurd k1 h,
      ⟨fun _ h => h k1, fun _ => k2⟩⟩
  · have hp : st.keyPressing ≠ -1 := (digit_facts _ k1).2.2.2
    refine ⟨⟨fun h => absurd h hp, fun h => ?_⟩, fun _ => ⟨k1, k3, k2⟩,
      ⟨fun h => ?_, fun h => absurd hp h⟩⟩
    · omega
    · omega

theorem scan_state_invariant_witness :
    ((str "4433" ++ str "#").length : Int) ≤ INT_MAX ∧
    scan initState (str "4433") = .atEnd ⟨ch '3', 2, str "H"⟩ ∧
    ((0 : Int) ≤ 2 ∧ (2 : Int) ≤ INT_MAX) ∧
    (ch '3' ≠ -1 →
      isDigit (ch '3') ∧ (1 : Int) ≤ 2 ∧ (2 : Int) = trailingPresses (ch '3') (str "4433")) :=
  have h := scan_state_invariant (str "4433") (str "#") ⟨ch '3', 2, str "H"⟩ (by decide)
    (by decide)
  ⟨by decide, by decide, h.1, h.2.2.1⟩

/-- C17. For every `body` consisting only of digits and spaces, of at most `INT_MAX`
characters (so that no press count overflows an `int`), `parse(body ++ "#")` succeeds and its
output is obtained by splitting `body` at spaces, splitting each piece into maximal runs of one
repeated digit, and mapping each run, in order, to
`getCharForPresses(run's digit, run's length)`; the output has exactly one character per run,
and every run is a run of a digit whose length is a positive `int`. -/
theorem parse_digits_spaces (body : List CChar)
    (hb : ∀ c ∈ body, isDigit c ∨ c = ch ' ') (hlen : (body.length : Int) ≤ INT_MAX) :
    ∃ out, parse (body ++ [ch '#']) = some (Result.Ok out) ∧
      out.map some = (pressSequences body).map (fun run => getCharForPresses run.1 run.2) ∧
      out.length = (pressSequences body).length ∧
      ∀ run ∈ pressSequences body, isDigit run.1 ∧ 1 ≤ run.2 ∧ (run.2 : Int) ≤ INT_MAX := by
  obtain ⟨out, h1, h2⟩ := (finish_digits_spaces body hb).1 []
  refine ⟨out, ?_, h2, ?_, ?_⟩
  · rw [parse_eq_finish _ (by simp)]
    exact h1
  · have := congrArg List.length h2
    simpa [specDecode] using this
  · intro run hrun
    obtain ⟨b1, b2, b3, b4⟩ := pressSequences_bounds body run hrun
    refine ⟨?_, b3, by omega⟩
    rcases hb _ b1 with h | h
    · exact h
    · exact absurd h b2

theorem parse_digits_spaces_witness :
    (∀ c ∈ str "4433555 555666", isDigit c ∨ c = ch ' ') ∧
    ((str "4433555 555666").length : Int) ≤ INT_MAX ∧
    pressSequences (str "4433555 555666") =
      [(ch '4', 2), (ch '3', 2), (ch '5', 3), (ch '5', 3), (ch '6', 3)] ∧
    parse (str "4433555 555666" ++ [ch '#']) = some (Result.Ok (str "HELLO")) ∧
    ∃ out, parse (str "4433555 555666" ++ [ch '#']) = some (Result.Ok out) ∧
      out.map some =
        (pressSequences (str "4433555 555666")).map
          (fun run => getCharForPresses run.1 run.2) ∧
      out.length = (pressSequences (str "4433555 555666")).length ∧
      ∀ run ∈ pressSequences (str "4433555 555666"),
        isDigit run.1 ∧ 1 ≤ run.2 ∧ (run.2 : Int) ≤ INT_MAX :=
  ⟨by decide, by decide, by decide, by decide,
    parse_digits_spaces (str "4433555 555666") (by decide) (by decide)⟩

end ParserPhonePad
